import Mathlib

/-!
Verification development for the spectacular test-execution framework
(crates/spectacular/src/runner.rs, types.rs, report.rs).

The model is a shallow embedding of `runner::run()`:

* Hook functions (`fn()`) are abstracted by whether they panic; every
  invocation is recorded as an `Event` in a trace.
* Test bodies (`fn()`) are abstracted by their behaviour: return normally
  or panic with a payload (`&str`, `String`, or some other `Any`),
  mirroring the `downcast_ref` chain in `runner.rs`.
* `StdRng::seed_from_u64(seed)` followed by `gen_range` draws is
  abstracted as a deterministic stream of naturals `Nat → Nat`: the stream
  is a function of the seed alone, and each bounded draw consumes one
  stream element (`stream pos % bound`), as in a Fisher–Yates shuffle
  driven by a seeded PRNG.
* The iteration order of `std::collections::HashMap` (used by
  `group_map.iter_mut()` in runner.rs lines 42–45) is NOT deterministic in
  Rust: it is modelled as an explicit parameter `iorder`, constrained in
  theorems to be a permutation of the map's key set.
* `panic::catch_unwind` wraps only the test body; a panic anywhere else
  aborts the run, modelled by `Except`: `.error tr` is an unwound run whose
  observable side effects so far are `tr` and which returns no
  `SuiteResult`.
* Durations and stdout formatting are out of scope; the print calls that
  carry information (`print_header`, `print_group`, `print_test_result`,
  `print_summary`) are kept as trace events.
-/

/-- Lexicographic order on character lists: the order Rust uses to `sort()`
string slices (byte-wise lexicographic; identical on ASCII data). -/
def charListLe : List Char → List Char → Bool
  | [], _ => true
  | _ :: _, [] => false
  | x :: xs, y :: ys => if x = y then charListLe xs ys else decide (x < y)

/-- Lexicographic order on strings, via their character data. -/
def strLe (a b : String) : Bool := charListLe a.data b.data

/-- Insert an element into a sorted list, before the first element it
compares `le` to (stable insertion). -/
def insertLe (le : α → α → Bool) (x : α) : List α → List α
  | [] => [x]
  | y :: ys => if le x y then x :: y :: ys else y :: insertLe le x ys

/-- Stable sort (insertion sort).  Models Rust's stable `sort` /
`sort_by_key`: it produces the same ascending order, and keeps equal
elements in their original relative order. -/
def sortLe (le : α → α → Bool) : List α → List α
  | [] => []
  | x :: xs => insertLe le x (sortLe le xs)

/-- `Vec::swap i j` on a list (in the runner it is always called with
in-bounds indices). -/
def listSwap (l : List α) (i j : Nat) : List α :=
  if h : i < l.length ∧ j < l.length then (l.set i (l.get ⟨j, h.2⟩)).set j (l.get ⟨i, h.1⟩)
  else l

/-- The seeded generator: an abstract deterministic stream of draws (the
stream is determined by the seed, as `StdRng::seed_from_u64` is), plus the
position of the next draw to consume. -/
structure Rng where
  stream : Nat → Nat
  pos : Nat

/-- Consume one draw, reduced to a bounded index (abstraction of the
uniform index sampling done by `gen_range(0..bound)`). -/
def Rng.next (rng : Rng) (bound : Nat) : Nat × Rng :=
  (rng.stream rng.pos % bound, ⟨rng.stream, rng.pos + 1⟩)

/-- Fisher–Yates steps of `SliceRandom::shuffle`: for `i` from `len-1`
down to `1`, draw `j ∈ [0, i]` and swap positions `i` and `j`. -/
def fyGo (l : List α) (rng : Rng) : Nat → List α × Rng
  | 0 => (l, rng)
  | i + 1 =>
    let d := rng.next (i + 2)
    fyGo (listSwap l (i + 1) d.1) d.2 i

/-- `SliceRandom::shuffle`: seeded in-place shuffle of a slice,
consuming one draw per position from `len-1` down to `1`. -/
def shuffle (l : List α) (rng : Rng) : List α × Rng :=
  fyGo l rng (l.length - 1)

/-! ## Data model (types.rs) -/

/-- The payload of a caught panic, as inspected by the `downcast_ref`
chain in runner.rs lines 103–108: a `&str`, a `String`, or anything
else. -/
inductive PanicPayload
  | strPayload (s : String)
  | stringPayload (s : String)
  | otherPayload
deriving DecidableEq, Repr

/-- The observable behaviour of a test body `fn()`: return normally or
panic with a payload. -/
inductive TestBehavior
  | ok
  | panics (p : PanicPayload)
deriving DecidableEq, Repr

/-- A hook `fn()`, abstracted by whether invoking it panics. -/
structure Hook where
  panics : Bool
deriving DecidableEq, Repr

/-- types.rs `TestCase`. -/
structure TestCase where
  name : String
  module : String
  test_fn : TestBehavior
  file : String
  line : Nat
deriving DecidableEq, Repr

/-- types.rs `TestGroup`. -/
structure TestGroup where
  name : String
  before : Option Hook
  after : Option Hook
  before_each : Option Hook
  after_each : Option Hook
deriving DecidableEq, Repr

/-- types.rs `SuiteHookKind`. -/
inductive SuiteHookKind
  | before
  | after
  | beforeEach
  | afterEach
deriving DecidableEq, Repr

/-- types.rs `SuiteHook`. -/
structure SuiteHook where
  kind : SuiteHookKind
  hook_fn : Hook
deriving DecidableEq, Repr

/-- types.rs `TestOutcome` (durations omitted: real time). -/
inductive TestOutcome
  | passed
  | failed (msg : String)
deriving DecidableEq, Repr

/-- types.rs `TestResult` (duration omitted). -/
structure TestResult where
  name : String
  module : String
  file : String
  line : Nat
  outcome : TestOutcome
deriving DecidableEq, Repr

/-- types.rs `SuiteResult` (total_duration omitted). -/
structure SuiteResult where
  results : List TestResult
  seed : Nat
deriving DecidableEq, Repr

/-- types.rs `SuiteResult::passed`. -/
def SuiteResult.passed (r : SuiteResult) : Nat :=
  (r.results.filter (fun t => t.outcome matches TestOutcome.passed)).length

/-- types.rs `SuiteResult::failed`. -/
def SuiteResult.failed (r : SuiteResult) : Nat :=
  (r.results.filter (fun t => t.outcome matches TestOutcome.failed _)).length

/-- types.rs `SuiteResult::all_passed`. -/
def SuiteResult.all_passed (r : SuiteResult) : Bool :=
  r.results.all (fun t => t.outcome matches TestOutcome.passed)

/-- The inventory registry: suite hooks, groups and tests in registration
order (`inventory::iter` collected into `Vec`s in runner.rs lines 19–21). -/
structure Registry where
  suiteHooks : List SuiteHook
  groups : List TestGroup
  tests : List TestCase
deriving DecidableEq, Repr

/-! ## The group map (runner.rs lines 23–36)

`group_map : HashMap<&str, (Option<&TestGroup>, Vec<&TestCase>)>` keyed by
group name / test module.  The map member for a key is a pure function of
the registry; only the ITERATION ORDER of the map is unspecified. -/

/-- The `Option<&TestGroup>` entry of `group_map` for a key: groups are
inserted in registration order, each overwriting `.0`, so the last
registered group with that name wins. -/
def groupFor (r : Registry) (n : String) : Option TestGroup :=
  (r.groups.filter (fun g => g.name = n)).getLast?

/-- The `Vec<&TestCase>` entry of `group_map` for a key: tests pushed in
registration order. -/
def testsFor (r : Registry) (n : String) : List TestCase :=
  r.tests.filter (fun t => t.module = n)

/-- The key set of `group_map` (as a duplicate-free list; its intrinsic
order is irrelevant, every use sorts or permutes it). -/
def keyNames (r : Registry) : List String :=
  (r.groups.map (fun g => g.name) ++ r.tests.map (fun t => t.module)).dedup

/-- runner.rs lines 38–39: keys collected and sorted lexicographically. -/
def sortedKeys (r : Registry) : List String :=
  sortLe strLe (keyNames r)

/-- runner.rs lines 47–66: suite hooks filtered by kind, in registration
order. -/
def suiteHooksOf (r : Registry) (k : SuiteHookKind) : List Hook :=
  (r.suiteHooks.filter (fun h => h.kind = k)).map (fun h => h.hook_fn)

/-! ## Seed resolution (runner.rs lines 12–15) -/

/-- Parse a run of ASCII digits, failing on any other character. -/
def parseDigits : List Char → Nat → Option Nat
  | [], acc => some acc
  | c :: cs, acc =>
    if c.isDigit then parseDigits cs (acc * 10 + (c.toNat - '0'.toNat)) else none

/-- Rust's `str::parse::<u64>()`: an optional leading `+`, then one or
more ASCII digits, value below 2^64; anything else is an error. -/
def parseU64 (s : String) : Option Nat :=
  let body := match s.data with
    | '+' :: rest => rest
    | cs => cs
  match body with
  | [] => none
  | _ :: _ =>
    match parseDigits body 0 with
    | none => none
    | some n => if n < 2 ^ 64 then some n else none

/-- runner.rs lines 12–15: `TEST_SEED` if set must parse (else the
`expect` panics, modelled as `none`); otherwise a fresh random seed. -/
def resolveSeed (env : Option String) (fresh : Nat) : Option Nat :=
  match env with
  | some s => parseU64 s
  | none => some fresh

/-! ## Plan construction (runner.rs lines 17–45) -/

/-- runner.rs lines 42–45: `for (_name, (_group, tests)) in
group_map.iter_mut() { tests.sort_by_key(|t| t.name); tests.shuffle(&mut rng); }`.
The fold walks the map's (unspecified) iteration order, sorting and then
shuffling each entry's tests, threading the single seeded generator. -/
def shuffleTestsFold (r : Registry) :
    List String → ((String → List TestCase) × Rng) → ((String → List TestCase) × Rng)
  | [], acc => acc
  | n :: rest, (f, rng) =>
    let sorted := sortLe (fun a b => strLe a.name b.name) (testsFor r n)
    let sh := shuffle sorted rng
    shuffleTestsFold r rest ((fun m => if m = n then sh.1 else f m), sh.2)

/-- runner.rs lines 17–45: the execution plan.  Group names are sorted
then shuffled first (consuming the first draws); each map entry's tests
are sorted by name and shuffled with the same generator, consumed in the
map's iteration order `iorder`. -/
def buildPlan (r : Registry) (stream : Nat → Nat) (iorder : List String) :
    List (String × List TestCase) :=
  let g := shuffle (sortedKeys r) ⟨stream, 0⟩
  let tmap := shuffleTestsFold r iorder ((fun _ => []), g.2)
  g.1.map (fun n => (n, tmap.1 n))

/-! ## Execution (runner.rs lines 68–159) -/

/-- Observable side effects of a run, in order. `suiteBefore i` etc.
record the invocation of the i-th registered suite hook of that kind;
group hook events record the group name; `testBody` records the test's
module and name. -/
inductive Event
  | printHeader (seed : Nat)
  | suiteBefore (i : Nat)
  | printGroup (name : String)
  | groupBefore (name : String)
  | suiteBeforeEach (i : Nat)
  | groupBeforeEach (name : String)
  | testBody (module name : String)
  | groupAfterEach (name : String)
  | suiteAfterEach (i : Nat)
  | printTestResult (name : String) (outcome : TestOutcome)
  | groupAfter (name : String)
  | suiteAfter (i : Nat)
  | printSummary (passed failed seed : Nat)
deriving DecidableEq, Repr

/-- A trace of observable events. -/
abbrev Trace := List Event

/-- Run a list of (index, hook) pairs in order.  A panicking hook aborts:
its invocation event is recorded, nothing after it runs. -/
def runHookSeq (mk : Nat → Event) : List (Nat × Hook) → Except Trace Trace
  | [] => .ok []
  | (i, h) :: rest =>
    if h.panics then .error [mk i]
    else
      match runHookSeq mk rest with
      | .ok tr => .ok (mk i :: tr)
      | .error tr => .error (mk i :: tr)

/-- Run an optional group hook (`if let Some(g) = group && let Some(hk) = …`). -/
def runOptHook (oh : Option Hook) (ev : Event) : Except Trace Trace :=
  match oh with
  | none => .ok []
  | some h => if h.panics then .error [ev] else .ok [ev]

/-- runner.rs lines 103–109: the `Failed` message built from the panic
payload and the test's source location. -/
def panicMessage (p : PanicPayload) (file : String) (line : Nat) : String :=
  match p with
  | .strPayload s => s ++ "\n  at " ++ file ++ ":" ++ toString line
  | .stringPayload s => s ++ "\n  at " ++ file ++ ":" ++ toString line
  | .otherPayload => "test panicked\n  at " ++ file ++ ":" ++ toString line

/-- runner.rs lines 100–112: `catch_unwind` around the test body alone,
converted into a `TestOutcome`. -/
def outcomeOf (t : TestCase) : TestOutcome :=
  match t.test_fn with
  | .ok => .passed
  | .panics p => .failed (panicMessage p t.file t.line)

/-- runner.rs lines 87–134: one test of a group: suite before_each hooks,
group before_each, the body (panic caught), group after_each, suite
after_each hooks, then the result is printed and recorded. -/
def runTest (sbe sae : List (Nat × Hook)) (grp : Option TestGroup) (gname : String)
    (t : TestCase) : Except Trace (Trace × TestResult) :=
  match runHookSeq Event.suiteBeforeEach sbe with
  | .error tr => .error tr
  | .ok tr1 =>
  match runOptHook (grp.bind (fun g => g.before_each)) (.groupBeforeEach gname) with
  | .error tr => .error (tr1 ++ tr)
  | .ok tr2 =>
  let trB : Trace := [.testBody t.module t.name]
  match runOptHook (grp.bind (fun g => g.after_each)) (.groupAfterEach gname) with
  | .error tr => .error (tr1 ++ tr2 ++ trB ++ tr)
  | .ok tr3 =>
  match runHookSeq Event.suiteAfterEach sae with
  | .error tr => .error (tr1 ++ tr2 ++ trB ++ tr3 ++ tr)
  | .ok tr4 =>
    .ok (tr1 ++ tr2 ++ trB ++ tr3 ++ tr4 ++ [.printTestResult t.name (outcomeOf t)],
      ⟨t.name, t.module, t.file, t.line, outcomeOf t⟩)

/-- The tests of one group, in plan order. -/
def runTests (sbe sae : List (Nat × Hook)) (grp : Option TestGroup) (gname : String) :
    List TestCase → Except Trace (Trace × List TestResult)
  | [] => .ok ([], [])
  | t :: ts =>
    match runTest sbe sae grp gname t with
    | .error tr => .error tr
    | .ok (tr, res) =>
      match runTests sbe sae grp gname ts with
      | .error tr2 => .error (tr ++ tr2)
      | .ok (tr2, rs) => .ok (tr ++ tr2, res :: rs)

/-- runner.rs lines 76–144: one group: group header, `before`, the tests,
`after`. -/
def runGroup (sbe sae : List (Nat × Hook)) (r : Registry) (gname : String)
    (tests : List TestCase) : Except Trace (Trace × List TestResult) :=
  let grp := groupFor r gname
  let hd : Trace := [.printGroup gname]
  match runOptHook (grp.bind (fun g => g.before)) (.groupBefore gname) with
  | .error tr => .error (hd ++ tr)
  | .ok tr1 =>
  match runTests sbe sae grp gname tests with
  | .error tr => .error (hd ++ tr1 ++ tr)
  | .ok (tr2, rs) =>
  match runOptHook (grp.bind (fun g => g.after)) (.groupAfter gname) with
  | .error tr => .error (hd ++ tr1 ++ tr2 ++ tr)
  | .ok tr3 => .ok (hd ++ tr1 ++ tr2 ++ tr3, rs)

/-- The groups of the plan, in plan order. -/
def runGroups (sbe sae : List (Nat × Hook)) (r : Registry) :
    List (String × List TestCase) → Except Trace (Trace × List TestResult)
  | [] => .ok ([], [])
  | (n, ts) :: rest =>
    match runGroup sbe sae r n ts with
    | .error tr => .error tr
    | .ok (tr, rs) =>
      match runGroups sbe sae r rest with
      | .error tr2 => .error (tr ++ tr2)
      | .ok (tr2, rs2) => .ok (tr ++ tr2, rs ++ rs2)

/-- runner.rs `run()`.  `env` is the `TEST_SEED` variable, `fresh` the
value `rand::random()` would produce, `stream` the seeded generator's
draw stream, `iorder` the hash map's iteration order.  `.error tr` is a
run that unwound (seed parse failure or a hook panic) after the
observable effects `tr`; it returns no `SuiteResult`. -/
def run (r : Registry) (env : Option String) (fresh : Nat) (stream : Nat → Nat)
    (iorder : List String) : Except Trace (Trace × SuiteResult) :=
  match resolveSeed env fresh with
  | none => .error []
  | some seed =>
    let plan := buildPlan r stream iorder
    let sb := (suiteHooksOf r .before).enum
    let sa := (suiteHooksOf r .after).enum.reverse
    let sbe := (suiteHooksOf r .beforeEach).enum
    let sae := (suiteHooksOf r .afterEach).enum
    let hd : Trace := [.printHeader seed]
    match runHookSeq Event.suiteBefore sb with
    | .error tr => .error (hd ++ tr)
    | .ok tr1 =>
    match runGroups sbe sae r plan with
    | .error tr => .error (hd ++ tr1 ++ tr)
    | .ok (tr2, rs) =>
    match runHookSeq Event.suiteAfter sa with
    | .error tr => .error (hd ++ tr1 ++ tr2 ++ tr)
    | .ok tr3 =>
      let sr : SuiteResult := ⟨rs, seed⟩
      .ok (hd ++ tr1 ++ tr2 ++ tr3 ++ [.printSummary sr.passed sr.failed seed], sr)

/-- The observable trace of a run, whether or not it unwound. -/
def runTraceOf (x : Except Trace (Trace × SuiteResult)) : Trace :=
  match x with
  | .error tr => tr
  | .ok (tr, _) => tr

/-! ## Event classification helpers -/

/-- Is this event a test body execution? -/
def isTestBody : Event → Bool
  | .testBody _ _ => true
  | _ => false

/-- Is this event a group header print? -/
def isPrintGroup : Event → Bool
  | .printGroup _ => true
  | _ => false

/-- Is this event a suite-level before hook invocation? -/
def isSuiteBefore : Event → Bool
  | .suiteBefore _ => true
  | _ => false

/-- Is this event a suite-level after hook invocation? -/
def isSuiteAfter : Event → Bool
  | .suiteAfter _ => true
  | _ => false

/-- Is this event a group-level before hook invocation? -/
def isGroupBefore : Event → Bool
  | .groupBefore _ => true
  | _ => false

/-- Is this event a group-level after hook invocation? -/
def isGroupAfter : Event → Bool
  | .groupAfter _ => true
  | _ => false

/-- Is this event the final summary print? -/
def isPrintSummary : Event → Bool
  | .printSummary _ _ _ => true
  | _ => false

/-- Is this event the invocation of any hook (suite or group level)? -/
def isHookEvent : Event → Bool
  | .suiteBefore _ => true
  | .suiteAfter _ => true
  | .suiteBeforeEach _ => true
  | .suiteAfterEach _ => true
  | .groupBefore _ => true
  | .groupAfter _ => true
  | .groupBeforeEach _ => true
  | .groupAfterEach _ => true
  | _ => false

/-! ## Concrete data for counterexamples and witnesses -/

/-- A hook that returns normally. -/
def hookOk : Hook := ⟨false⟩

/-- A hook that panics when invoked. -/
def hookPanics : Hook := ⟨true⟩

/-- Group "a" with all four hooks. -/
def cexGroupA : TestGroup := ⟨"a", some hookOk, some hookOk, some hookOk, some hookOk⟩

/-- Group "b" with no hooks. -/
def cexGroupB : TestGroup := ⟨"b", none, none, none, none⟩

/-- Registry with two groups of two tests each, used to exhibit the
hash-iteration-order dependence of the shuffles. -/
def cexReg : Registry :=
  ⟨[⟨.before, hookOk⟩, ⟨.beforeEach, hookOk⟩, ⟨.afterEach, hookOk⟩,
    ⟨.after, hookOk⟩, ⟨.after, hookOk⟩],
   [cexGroupA, cexGroupB],
   [⟨"a1", "a", .ok, "f.rs", 1⟩, ⟨"a2", "a", .panics (.strPayload "boom"), "f.rs", 2⟩,
    ⟨"b1", "b", .ok, "f.rs", 3⟩, ⟨"b2", "b", .ok, "f.rs", 4⟩]⟩

/-- A draw stream a seeded generator can produce: second draw 0, all
others 1. -/
def cexStream : Nat → Nat := fun n => if n = 1 then 0 else 1

/-- Registry with one ordinary group and one test, plus one suite-level
before_each hook; the group's record carries no opt-in marker of any kind
(the runner's data model has none). -/
def c4Reg : Registry :=
  ⟨[⟨.beforeEach, hookOk⟩],
   [⟨"g", none, none, none, none⟩],
   [⟨"t", "g", .ok, "f.rs", 1⟩]⟩

/-- Did the run complete without unwinding? -/
def runCompleted (x : Except Trace (Trace × SuiteResult)) : Bool :=
  x matches .ok _

/-- C1: with the explicit seed "7" fixed (hence a fixed draw stream), two
executions of run() that differ only in the hash map's iteration order
print the same group sequence but execute the tests of the groups in
different orders: execution order is NOT a function of the seed alone. -/
theorem c1_same_seed_order_differs :
    List.Perm ["a", "b"] (sortedKeys cexReg) ∧
    List.Perm ["b", "a"] (sortedKeys cexReg) ∧
    runCompleted (run cexReg (some "7") 0 cexStream ["a", "b"]) = true ∧
    runCompleted (run cexReg (some "7") 0 cexStream ["b", "a"]) = true ∧
    (runTraceOf (run cexReg (some "7") 0 cexStream ["a", "b"])).filter isPrintGroup =
      (runTraceOf (run cexReg (some "7") 0 cexStream ["b", "a"])).filter isPrintGroup ∧
    (runTraceOf (run cexReg (some "7") 0 cexStream ["a", "b"])).filter isTestBody ≠
      (runTraceOf (run cexReg (some "7") 0 cexStream ["b", "a"])).filter isTestBody := by
  decide

/-- C6: the plan built by run() (runner.rs lines 17–45) is not a function
of the seed and the registered names alone: with the draw stream fixed,
two legal hash-map iteration orders yield the same group sequence but
different per-group test sequences. -/
theorem c6_plan_depends_on_hash_order :
    List.Perm ["a", "b"] (sortedKeys cexReg) ∧
    List.Perm ["b", "a"] (sortedKeys cexReg) ∧
    (buildPlan cexReg cexStream ["a", "b"]).map Prod.fst =
      (buildPlan cexReg cexStream ["b", "a"]).map Prod.fst ∧
    buildPlan cexReg cexStream ["a", "b"] ≠ buildPlan cexReg cexStream ["b", "a"] := by
  decide

/-- C4 counterexample: a registry whose only group carries no suite
opt-in of any kind (the runner's data model has no opt-in field) and one
suite-level before_each hook: the hook still runs for the group's test,
so "suite before_each never runs for tests of groups that did not opt in"
is false of run(). -/
theorem c4_counterexample :
    runCompleted (run c4Reg none 0 (fun _ => 0) (sortedKeys c4Reg)) = true ∧
    (runTraceOf (run c4Reg none 0 (fun _ => 0) (sortedKeys c4Reg))).count
      (Event.suiteBeforeEach 0) = 1 := by
  decide

/-! ## Characterization of a run in which no hook panics -/

/-- The trace a single hook invocation would leave: one event if the hook
is declared, nothing otherwise. -/
def optHookEv (oh : Option Hook) (ev : Event) : Trace :=
  match oh with
  | none => []
  | some _ => [ev]

/-- An optional hook that does not panic. -/
def optOk : Option Hook → Bool
  | none => true
  | some h => !h.panics

/-- All four hooks of a group return normally. -/
def TestGroup.hooksOk (g : TestGroup) : Bool :=
  optOk g.before && optOk g.after && optOk g.before_each && optOk g.after_each

/-- The hooks of an optional group entry return normally. -/
def grpOk : Option TestGroup → Bool
  | none => true
  | some g => g.hooksOk

/-- Every registered hook (suite level and group level) returns
normally. -/
def Registry.hooksOk (r : Registry) : Bool :=
  r.suiteHooks.all (fun h => !h.hook_fn.panics) && r.groups.all (fun g => g.hooksOk)

/-- The trace of a single test's execution (runner.rs lines 87–134) when
no hook panics. -/
def testBlockTr (sbe sae : List (Nat × Hook)) (grp : Option TestGroup) (gname : String)
    (t : TestCase) : Trace :=
  (sbe.map fun x => Event.suiteBeforeEach x.1)
    ++ optHookEv (grp.bind fun g => g.before_each) (.groupBeforeEach gname)
    ++ [Event.testBody t.module t.name]
    ++ optHookEv (grp.bind fun g => g.after_each) (.groupAfterEach gname)
    ++ (sae.map fun x => Event.suiteAfterEach x.1)
    ++ [Event.printTestResult t.name (outcomeOf t)]

/-- The `TestResult` recorded for a test (runner.rs lines 127–134). -/
def testRes (t : TestCase) : TestResult :=
  ⟨t.name, t.module, t.file, t.line, outcomeOf t⟩

/-- The indexed suite before_each hooks. -/
def sbeIdx (r : Registry) : List (Nat × Hook) := (suiteHooksOf r .beforeEach).enum

/-- The indexed suite after_each hooks. -/
def saeIdx (r : Registry) : List (Nat × Hook) := (suiteHooksOf r .afterEach).enum

/-- The trace of one group's execution (runner.rs lines 76–144) when no
hook panics. -/
def groupTr (r : Registry) (gname : String) (ts : List TestCase) : Trace :=
  Event.printGroup gname ::
    (optHookEv ((groupFor r gname).bind fun g => g.before) (.groupBefore gname)
      ++ (ts.map (testBlockTr (sbeIdx r) (saeIdx r) (groupFor r gname) gname)).flatten
      ++ optHookEv ((groupFor r gname).bind fun g => g.after) (.groupAfter gname))

/-- The group portion of a completed run's trace. -/
def planTr (r : Registry) (stream : Nat → Nat) (iorder : List String) : Trace :=
  ((buildPlan r stream iorder).map fun pr => groupTr r pr.1 pr.2).flatten

/-- The results recorded by a completed run, in execution order. -/
def planResults (r : Registry) (stream : Nat → Nat) (iorder : List String) :
    List TestResult :=
  ((buildPlan r stream iorder).map fun pr => pr.2.map testRes).flatten

/-- The `SuiteResult` of a completed run. -/
def okSR (r : Registry) (stream : Nat → Nat) (iorder : List String) (seed : Nat) :
    SuiteResult :=
  ⟨planResults r stream iorder, seed⟩

/-- The full trace of a completed run. -/
def okTrace (r : Registry) (stream : Nat → Nat) (iorder : List String) (seed : Nat) :
    Trace :=
  Event.printHeader seed ::
    (((suiteHooksOf r .before).enum.map fun x => Event.suiteBefore x.1)
      ++ planTr r stream iorder
      ++ ((suiteHooksOf r .after).enum.reverse.map fun x => Event.suiteAfter x.1)
      ++ [Event.printSummary (okSR r stream iorder seed).passed
            (okSR r stream iorder seed).failed seed])

theorem runHookSeq_ok (mk : Nat → Event) (hs : List (Nat × Hook))
    (h : ∀ x ∈ hs, x.2.panics = false) :
    runHookSeq mk hs = .ok (hs.map fun x => mk x.1) := by
  induction hs with
  | nil => rfl
  | cons a rest ih =>
    have h1 : a.2.panics = false := h a (by simp)
    have h2 : ∀ x ∈ rest, x.2.panics = false := fun x hx => h x (by simp [hx])
    obtain ⟨i, hk⟩ := a
    simp only at h1
    simp [runHookSeq, h1, ih h2]

theorem runOptHook_ok (oh : Option Hook) (ev : Event) (h : optOk oh = true) :
    runOptHook oh ev = .ok (optHookEv oh ev) := by
  cases oh with
  | none => rfl
  | some hk =>
    simp only [optOk, Bool.not_eq_true'] at h
    simp [runOptHook, optHookEv, h]

theorem grpOk_before_each {grp : Option TestGroup} (h : grpOk grp = true) :
    optOk (grp.bind fun g => g.before_each) = true := by
  cases grp with
  | none => rfl
  | some g =>
    simp only [grpOk, TestGroup.hooksOk, Bool.and_eq_true] at h
    simpa using h.1.2

theorem grpOk_after_each {grp : Option TestGroup} (h : grpOk grp = true) :
    optOk (grp.bind fun g => g.after_each) = true := by
  cases grp with
  | none => rfl
  | some g =>
    simp only [grpOk, TestGroup.hooksOk, Bool.and_eq_true] at h
    simpa using h.2

theorem grpOk_before {grp : Option TestGroup} (h : grpOk grp = true) :
    optOk (grp.bind fun g => g.before) = true := by
  cases grp with
  | none => rfl
  | some g =>
    simp only [grpOk, TestGroup.hooksOk, Bool.and_eq_true] at h
    simpa using h.1.1.1

theorem grpOk_after {grp : Option TestGroup} (h : grpOk grp = true) :
    optOk (grp.bind fun g => g.after) = true := by
  cases grp with
  | none => rfl
  | some g =>
    simp only [grpOk, TestGroup.hooksOk, Bool.and_eq_true] at h
    simpa using h.1.1.2

theorem runTest_ok (sbe sae : List (Nat × Hook)) (grp : Option TestGroup)
    (gname : String) (t : TestCase)
    (hsbe : ∀ x ∈ sbe, x.2.panics = false) (hsae : ∀ x ∈ sae, x.2.panics = false)
    (hg : grpOk grp = true) :
    runTest sbe sae grp gname t = .ok (testBlockTr sbe sae grp gname t, testRes t) := by
  unfold runTest
  rw [runHookSeq_ok _ _ hsbe, runOptHook_ok _ _ (grpOk_before_each hg),
    runOptHook_ok _ _ (grpOk_after_each hg), runHookSeq_ok _ _ hsae]
  simp [testBlockTr, testRes]

theorem runTests_ok (sbe sae : List (Nat × Hook)) (grp : Option TestGroup)
    (gname : String) (ts : List TestCase)
    (hsbe : ∀ x ∈ sbe, x.2.panics = false) (hsae : ∀ x ∈ sae, x.2.panics = false)
    (hg : grpOk grp = true) :
    runTests sbe sae grp gname ts =
      .ok ((ts.map (testBlockTr sbe sae grp gname)).flatten, ts.map testRes) := by
  induction ts with
  | nil => rfl
  | cons t ts ih =>
    simp [runTests, runTest_ok sbe sae grp gname t hsbe hsae hg, ih]

theorem groupFor_grpOk (r : Registry) (n : String) (hok : r.hooksOk = true) :
    grpOk (groupFor r n) = true := by
  rcases hg : groupFor r n with _ | g
  · rfl
  · have hmem : g ∈ r.groups := by
      have := List.mem_of_mem_getLast? hg
      exact (List.mem_filter.1 this).1
    simp only [Registry.hooksOk, Bool.and_eq_true, List.all_eq_true] at hok
    exact hok.2 g hmem

theorem runGroup_ok (r : Registry) (gname : String) (ts : List TestCase)
    (hok : r.hooksOk = true) :
    runGroup (suiteHooksOf r .beforeEach).enum (suiteHooksOf r .afterEach).enum r gname ts =
      .ok (groupTr r gname ts, ts.map testRes) := by
  have hsuite : ∀ h ∈ r.suiteHooks, h.hook_fn.panics = false := by
    simp only [Registry.hooksOk, Bool.and_eq_true, List.all_eq_true] at hok
    intro h hm
    simpa using hok.1 h hm
  have hsub : ∀ (k : SuiteHookKind) (x : Nat × Hook), x ∈ (suiteHooksOf r k).enum →
      x.2.panics = false := by
    intro k x hx
    obtain ⟨i, hk⟩ := x
    have : hk ∈ suiteHooksOf r k := by
      have := (List.mem_enum hx).2
      simp only at this
      rw [this]
      exact List.getElem_mem _
    simp only [suiteHooksOf, List.mem_map] at this
    obtain ⟨sh, hsh, hfn⟩ := this
    simpa [← hfn] using hsuite sh (List.mem_filter.1 hsh).1
  have hg := groupFor_grpOk r gname hok
  simp only [runGroup]
  rw [runOptHook_ok _ _ (grpOk_before hg),
    runTests_ok _ _ _ _ _ (hsub .beforeEach) (hsub .afterEach) hg,
    runOptHook_ok _ _ (grpOk_after hg)]
  simp [groupTr, sbeIdx, saeIdx]

theorem runGroups_ok (r : Registry) (plan : List (String × List TestCase))
    (hok : r.hooksOk = true) :
    runGroups (suiteHooksOf r .beforeEach).enum (suiteHooksOf r .afterEach).enum r plan =
      .ok ((plan.map fun pr => groupTr r pr.1 pr.2).flatten,
        (plan.map fun pr => pr.2.map testRes).flatten) := by
  induction plan with
  | nil => rfl
  | cons pr rest ih =>
    simp [runGroups, runGroup_ok r pr.1 pr.2 hok, ih]

/-- Master characterization: when the seed input resolves and no
registered hook panics, `run` completes, leaving the trace `okTrace` and
returning the `SuiteResult` `okSR`. -/
theorem run_ok (r : Registry) (env : Option String) (fresh : Nat) (stream : Nat → Nat)
    (iorder : List String) (seed : Nat)
    (hseed : resolveSeed env fresh = some seed) (hok : r.hooksOk = true) :
    run r env fresh stream iorder =
      .ok (okTrace r stream iorder seed, okSR r stream iorder seed) := by
  have hsuite : ∀ h ∈ r.suiteHooks, h.hook_fn.panics = false := by
    simp only [Registry.hooksOk, Bool.and_eq_true, List.all_eq_true] at hok
    intro h hm
    simpa using hok.1 h hm
  have hkind : ∀ (k : SuiteHookKind) (x : Nat × Hook), x ∈ (suiteHooksOf r k).enum →
      x.2.panics = false := by
    intro k x hx
    obtain ⟨i, hk⟩ := x
    have : hk ∈ suiteHooksOf r k := by
      have := (List.mem_enum hx).2
      simp only at this
      rw [this]
      exact List.getElem_mem _
    simp only [suiteHooksOf, List.mem_map] at this
    obtain ⟨sh, hsh, hfn⟩ := this
    simpa [← hfn] using hsuite sh (List.mem_filter.1 hsh).1
  have hrev : ∀ x ∈ (suiteHooksOf r .after).enum.reverse, (x : Nat × Hook).2.panics = false := by
    intro x hx
    exact hkind .after x (List.mem_reverse.1 hx)
  unfold run
  rw [hseed]
  simp only
  rw [runHookSeq_ok _ _ (hkind .before), runGroups_ok r _ hok, runHookSeq_ok _ _ hrev]
  simp [okTrace, okSR, planTr, planResults]

/-! ## Permutation facts about the scheduling primitives -/

theorem cons_set_perm : ∀ (t : List α) (r : Nat) (hr : r < t.length) (a : α),
    (t.get ⟨r, hr⟩ :: t.set r a).Perm (a :: t)
  | b :: u, 0, _, a => List.Perm.swap a b u
  | b :: u, r + 1, hr, a => by
    have hru : r < u.length := Nat.lt_of_succ_lt_succ hr
    show (u.get ⟨r, hru⟩ :: b :: u.set r a).Perm (a :: b :: u)
    have h1 : (u.get ⟨r, hru⟩ :: b :: u.set r a).Perm (b :: u.get ⟨r, hru⟩ :: u.set r a) :=
      List.Perm.swap _ _ _
    have h2 : (b :: u.get ⟨r, hru⟩ :: u.set r a).Perm (b :: a :: u) :=
      (cons_set_perm u r hru a).cons b
    have h3 : (b :: a :: u).Perm (a :: b :: u) := List.Perm.swap _ _ _
    exact (h1.trans h2).trans h3

theorem set_set_perm : ∀ (l : List α) (i j : Nat) (hi : i < l.length) (hj : j < l.length),
    ((l.set i (l.get ⟨j, hj⟩)).set j (l.get ⟨i, hi⟩)).Perm l
  | b :: u, 0, 0, _, _ => by simp
  | b :: u, 0, j + 1, hi, hj => by
    have hju : j < u.length := Nat.lt_of_succ_lt_succ hj
    show (u.get ⟨j, hju⟩ :: u.set j b).Perm (b :: u)
    exact cons_set_perm u j hju b
  | b :: u, i + 1, 0, hi, hj => by
    have hiu : i < u.length := Nat.lt_of_succ_lt_succ hi
    show (u.get ⟨i, hiu⟩ :: u.set i b).Perm (b :: u)
    exact cons_set_perm u i hiu b
  | b :: u, i + 1, j + 1, hi, hj => by
    have hiu : i < u.length := Nat.lt_of_succ_lt_succ hi
    have hju : j < u.length := Nat.lt_of_succ_lt_succ hj
    show (b :: (u.set i (u.get ⟨j, hju⟩)).set j (u.get ⟨i, hiu⟩)).Perm (b :: u)
    exact (set_set_perm u i j hiu hju).cons b

theorem listSwap_perm (l : List α) (i j : Nat) : (listSwap l i j).Perm l := by
  unfold listSwap
  split
  · exact set_set_perm l i j _ _
  · exact List.Perm.refl l

theorem fyGo_perm : ∀ (n : Nat) (l : List α) (rng : Rng), ((fyGo l rng n).1).Perm l
  | 0, _, _ => List.Perm.refl _
  | n + 1, l, rng =>
    (fyGo_perm n (listSwap l (n + 1) ((rng.next (n + 2)).1)) (rng.next (n + 2)).2).trans
      (listSwap_perm l (n + 1) _)

theorem shuffle_perm (l : List α) (rng : Rng) : ((shuffle l rng).1).Perm l :=
  fyGo_perm (l.length - 1) l rng

theorem insertLe_perm (le : α → α → Bool) (x : α) :
    ∀ l : List α, (insertLe le x l).Perm (x :: l)
  | [] => List.Perm.refl _
  | y :: ys => by
    unfold insertLe
    split
    · exact List.Perm.refl _
    · exact ((insertLe_perm le x ys).cons y).trans (List.Perm.swap x y ys)

theorem sortLe_perm (le : α → α → Bool) : ∀ l : List α, (sortLe le l).Perm l
  | [] => List.Perm.refl _
  | x :: xs =>
    (insertLe_perm le x (sortLe le xs)).trans ((sortLe_perm le xs).cons x)

/-! ## The per-entry shuffles of shuffleTestsFold -/

theorem shuffleTestsFold_stable (r : Registry) :
    ∀ (l : List String) (f : String → List TestCase) (rng : Rng) (n : String),
      n ∉ l → (shuffleTestsFold r l (f, rng)).1 n = f n
  | [], _, _, _, _ => rfl
  | m :: rest, f, rng, n, hn => by
    have h1 : n ≠ m := fun h => hn (h ▸ List.mem_cons_self m rest)
    have h2 : n ∉ rest := fun h => hn (List.mem_cons_of_mem m h)
    unfold shuffleTestsFold
    rw [shuffleTestsFold_stable r rest _ _ n h2]
    simp [h1]

theorem shuffleTestsFold_value (r : Registry) :
    ∀ (l : List String) (f : String → List TestCase) (rng : Rng) (n : String),
      l.Nodup → n ∈ l →
      ∃ rng2, (shuffleTestsFold r l (f, rng)).1 n =
        (shuffle (sortLe (fun a b => strLe a.name b.name) (testsFor r n)) rng2).1
  | [], _, _, _, _, hn => absurd hn (List.not_mem_nil _)
  | m :: rest, f, rng, n, hnd, hn => by
    rcases List.mem_cons.1 hn with h | h
    · subst h
      have hm : n ∉ rest := (List.nodup_cons.1 hnd).1
      refine ⟨rng, ?_⟩
      unfold shuffleTestsFold
      rw [shuffleTestsFold_stable r rest _ _ n hm]
      simp
    · have hnd2 : rest.Nodup := (List.nodup_cons.1 hnd).2
      unfold shuffleTestsFold
      exact shuffleTestsFold_value r rest _ _ n hnd2 h

/-! ## Plan-level permutation facts -/

theorem keyNames_nodup (r : Registry) : (keyNames r).Nodup :=
  List.nodup_dedup _

theorem sortedKeys_perm (r : Registry) : (sortedKeys r).Perm (keyNames r) :=
  sortLe_perm strLe (keyNames r)

theorem sortedKeys_nodup (r : Registry) : (sortedKeys r).Nodup :=
  (sortedKeys_perm r).symm.nodup (keyNames_nodup r)

theorem map_pair_fst (l : List β) (f : β → γ) :
    ((l.map fun n => (n, f n)).map Prod.fst) = l := by
  induction l with
  | nil => rfl
  | cons x xs ih => simp [ih]

/-- The sequence of group names in the plan is a permutation of the key
set (each registered group name and test module appears exactly once). -/
theorem buildPlan_fst_perm (r : Registry) (stream : Nat → Nat) (iorder : List String) :
    ((buildPlan r stream iorder).map Prod.fst).Perm (sortedKeys r) := by
  simp only [buildPlan]
  rw [map_pair_fst]
  exact shuffle_perm (sortedKeys r) ⟨stream, 0⟩

/-- Each group's test list in the plan is a permutation of that group's
registered tests. -/
theorem buildPlan_snd_perm (r : Registry) (stream : Nat → Nat) (iorder : List String)
    (hio : iorder.Perm (keyNames r)) (n : String) (ts : List TestCase)
    (hmem : (n, ts) ∈ buildPlan r stream iorder) : ts.Perm (testsFor r n) := by
  have hio_nodup : iorder.Nodup := hio.symm.nodup (keyNames_nodup r)
  simp only [buildPlan, List.mem_map] at hmem
  obtain ⟨k, hk, hkeq⟩ := hmem
  injection hkeq with h1 h2
  subst h1
  have hmemk : k ∈ iorder := by
    have hsk : k ∈ sortedKeys r := (shuffle_perm (sortedKeys r) ⟨stream, 0⟩).mem_iff.1 hk
    exact (hio.mem_iff).2 ((sortedKeys_perm r).mem_iff.1 hsk)
  obtain ⟨rng2, hval⟩ := shuffleTestsFold_value r iorder
    (fun _ => ([] : List TestCase)) (shuffle (sortedKeys r) ⟨stream, 0⟩).2 k hio_nodup hmemk
  rw [← h2, hval]
  exact (shuffle_perm _ rng2).trans (sortLe_perm _ _)

/-! ## Flatten/partition: the plan's tests are exactly the registered tests -/

theorem flatten_perm_congr : ∀ {L1 L2 : List (List α)},
    List.Forall₂ List.Perm L1 L2 → L1.flatten.Perm L2.flatten
  | _, _, List.Forall₂.nil => List.Perm.refl _
  | _, _, List.Forall₂.cons h hs => h.append (flatten_perm_congr hs)

theorem forall₂_perm_map {l : List β} {f g : β → List α}
    (h : ∀ x ∈ l, (f x).Perm (g x)) :
    List.Forall₂ List.Perm (l.map f) (l.map g) := by
  induction l with
  | nil => exact List.Forall₂.nil
  | cons x xs ih =>
    exact List.Forall₂.cons (h x (List.mem_cons_self x xs))
      (ih fun y hy => h y (List.mem_cons_of_mem x hy))

theorem filter_module_partition :
    ∀ (keys : List String) (ts : List TestCase), keys.Nodup →
      (∀ t ∈ ts, t.module ∈ keys) →
      ((keys.map (fun n => ts.filter (fun t => t.module = n))).flatten).Perm ts
  | [], ts, _, hcov => by
    cases ts with
    | nil => exact List.Perm.refl _
    | cons t ts => exact absurd (hcov t (List.mem_cons_self t ts)) (List.not_mem_nil _)
  | k :: ks, ts, hnd, hcov => by
    have hk : k ∉ ks := (List.nodup_cons.1 hnd).1
    have hnd2 : ks.Nodup := (List.nodup_cons.1 hnd).2
    have hagree : ∀ n ∈ ks, ts.filter (fun t => t.module = n) =
        (ts.filter (fun t => !(decide (t.module = k)))).filter (fun t => t.module = n) := by
      intro n hn
      have hnk : n ≠ k := fun hh => hk (hh ▸ hn)
      rw [List.filter_filter]
      refine List.filter_congr ?_
      intro t _
      by_cases ht : t.module = n
      · have htk : t.module ≠ k := fun hh => hnk (ht.symm.trans hh)
        simp [ht, htk, hnk]
      · simp [ht]
    have hcov2 : ∀ t ∈ ts.filter (fun t => !(decide (t.module = k))), t.module ∈ ks := by
      intro t ht
      obtain ⟨hts, hmod⟩ := List.mem_filter.1 ht
      rcases List.mem_cons.1 (hcov t hts) with h | h
      · simp [h] at hmod
      · exact h
    have e1 : ((k :: ks).map (fun n => ts.filter (fun t => t.module = n))).flatten
        = ts.filter (fun t => t.module = k)
          ++ (ks.map (fun n => ts.filter (fun t => t.module = n))).flatten := by
      simp
    have e2 : (ks.map (fun n => ts.filter (fun t => t.module = n)))
        = (ks.map (fun n => (ts.filter (fun t => !(decide (t.module = k)))).filter
            (fun t => t.module = n))) := List.map_congr_left hagree
    rw [e1, e2]
    exact (List.Perm.append_left _ (filter_module_partition ks _ hnd2 hcov2)).trans
      (List.filter_append_perm _ ts)

/-- The flattened test sequence of the plan is a permutation of the
registered tests: every registered test is scheduled exactly once. -/
theorem buildPlan_tests_perm (r : Registry) (stream : Nat → Nat) (iorder : List String)
    (hio : iorder.Perm (keyNames r)) :
    (((buildPlan r stream iorder).map Prod.snd).flatten).Perm r.tests := by
  have h1 : List.Forall₂ List.Perm ((buildPlan r stream iorder).map Prod.snd)
      ((buildPlan r stream iorder).map (fun pr => testsFor r pr.1)) := by
    refine forall₂_perm_map ?_
    intro pr hpr
    exact buildPlan_snd_perm r stream iorder hio pr.1 pr.2 (by simpa using hpr)
  have h2 : ((buildPlan r stream iorder).map (fun pr => testsFor r pr.1)) =
      (((buildPlan r stream iorder).map Prod.fst).map (fun n => testsFor r n)) := by
    simp [List.map_map, Function.comp]
  have h3 : ((((buildPlan r stream iorder).map Prod.fst).map (fun n => testsFor r n)).flatten).Perm
      (((sortedKeys r).map (fun n => testsFor r n)).flatten) :=
    ((buildPlan_fst_perm r stream iorder).map _).flatten
  have h4 : (((sortedKeys r).map (fun n => testsFor r n)).flatten).Perm
      (((keyNames r).map (fun n => testsFor r n)).flatten) :=
    ((sortedKeys_perm r).map _).flatten
  have h5 : (((keyNames r).map (fun n => testsFor r n)).flatten).Perm r.tests := by
    refine filter_module_partition (keyNames r) r.tests (keyNames_nodup r) ?_
    intro t ht
    unfold keyNames
    rw [List.mem_dedup, List.mem_append]
    exact Or.inr (List.mem_map_of_mem _ ht)
  exact (flatten_perm_congr h1).trans ((h2 ▸ h3).trans (h4.trans h5))

/-- The recorded results are the scheduled tests' results in execution
order; as a multiset they are the registered tests' results. -/
theorem planResults_perm (r : Registry) (stream : Nat → Nat) (iorder : List String)
    (hio : iorder.Perm (keyNames r)) :
    (planResults r stream iorder).Perm (r.tests.map testRes) := by
  unfold planResults
  have h1 : ((buildPlan r stream iorder).map fun pr => pr.2.map testRes) =
      (((buildPlan r stream iorder).map Prod.snd).map (List.map testRes)) := by
    simp [List.map_map, Function.comp]
  rw [h1, ← List.map_flatten]
  exact (buildPlan_tests_perm r stream iorder hio).map testRes

/-! ## Anatomy of a completed run's trace -/

/-- Events that occur inside a single test's block. -/
def perTestEv : Event → Bool
  | .suiteBeforeEach _ => true
  | .groupBeforeEach _ => true
  | .testBody _ _ => true
  | .groupAfterEach _ => true
  | .suiteAfterEach _ => true
  | .printTestResult _ _ => true
  | _ => false

theorem mem_optHookEv {e : Event} {oh : Option Hook} {ev : Event}
    (h : e ∈ optHookEv oh ev) : e = ev := by
  cases oh with
  | none => exact absurd h (List.not_mem_nil e)
  | some hk => simpa [optHookEv] using h

theorem mem_testBlockTr {e : Event} {sbe sae : List (Nat × Hook)} {grp : Option TestGroup}
    {gname : String} {t : TestCase} (h : e ∈ testBlockTr sbe sae grp gname t) :
    (∃ x ∈ sbe, e = Event.suiteBeforeEach (Prod.fst x)) ∨ e = .groupBeforeEach gname ∨
    e = .testBody t.module t.name ∨ e = .groupAfterEach gname ∨
    (∃ x ∈ sae, e = Event.suiteAfterEach (Prod.fst x)) ∨
    e = .printTestResult t.name (outcomeOf t) := by
  simp only [testBlockTr, List.mem_append, List.mem_map, List.mem_singleton] at h
  rcases h with ((((h | h) | h) | h) | h) | h
  · obtain ⟨x, hx, he⟩ := h
    exact Or.inl ⟨x, hx, he.symm⟩
  · exact Or.inr (Or.inl (mem_optHookEv h))
  · exact Or.inr (Or.inr (Or.inl h))
  · exact Or.inr (Or.inr (Or.inr (Or.inl (mem_optHookEv h))))
  · obtain ⟨x, hx, he⟩ := h
    exact Or.inr (Or.inr (Or.inr (Or.inr (Or.inl ⟨x, hx, he.symm⟩))))
  · exact Or.inr (Or.inr (Or.inr (Or.inr (Or.inr h))))

theorem testBlockTr_perTest {e : Event} {sbe sae : List (Nat × Hook)}
    {grp : Option TestGroup} {gname : String} {t : TestCase}
    (h : e ∈ testBlockTr sbe sae grp gname t) : perTestEv e = true := by
  rcases mem_testBlockTr h with ⟨x, _, rfl⟩ | rfl | rfl | rfl | ⟨x, _, rfl⟩ | rfl <;> rfl

theorem mem_groupTr {e : Event} {r : Registry} {gname : String} {ts : List TestCase}
    (h : e ∈ groupTr r gname ts) :
    e = .printGroup gname ∨ e = .groupBefore gname ∨ e = .groupAfter gname ∨
    ∃ t ∈ ts, e ∈ testBlockTr (sbeIdx r) (saeIdx r) (groupFor r gname) gname t := by
  simp only [groupTr, List.mem_cons, List.mem_append, List.mem_flatten, List.mem_map] at h
  rcases h with h | (h | h) | h
  · exact Or.inl h
  · exact Or.inr (Or.inl (mem_optHookEv h))
  · obtain ⟨l, ⟨t, ht, rfl⟩, hel⟩ := h
    exact Or.inr (Or.inr (Or.inr ⟨t, ht, hel⟩))
  · exact Or.inr (Or.inr (Or.inl (mem_optHookEv h)))

theorem mem_planTr {e : Event} {r : Registry} {stream : Nat → Nat} {iorder : List String}
    (h : e ∈ planTr r stream iorder) :
    ∃ pr ∈ buildPlan r stream iorder, e ∈ groupTr r pr.1 pr.2 := by
  simp only [planTr, List.mem_flatten, List.mem_map] at h
  obtain ⟨l, ⟨pr, hpr, rfl⟩, hel⟩ := h
  exact ⟨pr, hpr, hel⟩

/-- Events inside a group's block are never suite-level hook invocations,
the header, or the summary. -/
theorem groupTr_no_suite {e : Event} {r : Registry} {gname : String} {ts : List TestCase}
    (h : e ∈ groupTr r gname ts) :
    isSuiteBefore e = false ∧ isSuiteAfter e = false ∧ isPrintSummary e = false := by
  rcases mem_groupTr h with rfl | rfl | rfl | ⟨t, _, hbt⟩
  · exact ⟨rfl, rfl, rfl⟩
  · exact ⟨rfl, rfl, rfl⟩
  · exact ⟨rfl, rfl, rfl⟩
  · rcases mem_testBlockTr hbt with ⟨x, _, rfl⟩ | rfl | rfl | rfl | ⟨x, _, rfl⟩ | rfl <;>
      exact ⟨rfl, rfl, rfl⟩

theorem planTr_no_suite {e : Event} {r : Registry} {stream : Nat → Nat}
    {iorder : List String} (h : e ∈ planTr r stream iorder) :
    isSuiteBefore e = false ∧ isSuiteAfter e = false ∧ isPrintSummary e = false := by
  obtain ⟨pr, _, hel⟩ := mem_planTr h
  exact groupTr_no_suite hel

/-! ## Generic position and counting helpers -/

/-- In `A ++ B`, if `p`-events occur only in `A` and `q`-events only in
`B`, every `p`-position precedes every `q`-position. -/
theorem sep_lt {A B : List α} {p q : α → Bool}
    (hpB : ∀ e ∈ B, p e = false) (hqA : ∀ e ∈ A, q e = false)
    {i j : Nat} (hi : i < (A ++ B).length) (hj : j < (A ++ B).length)
    (hp : p ((A ++ B).get ⟨i, hi⟩) = true) (hq : q ((A ++ B).get ⟨j, hj⟩) = true) :
    i < j := by
  have hiA : i < A.length := by
    by_contra hge
    have hge2 : A.length ≤ i := Nat.le_of_not_lt hge
    have : (A ++ B).get ⟨i, hi⟩ ∈ B := by
      rw [List.get_eq_getElem, List.getElem_append_right hge2]
      exact List.getElem_mem _
    rw [hpB _ this] at hp
    exact Bool.false_ne_true hp
  have hjA : A.length ≤ j := by
    by_contra hlt
    have hlt2 : j < A.length := Nat.lt_of_not_le hlt
    have : (A ++ B).get ⟨j, hj⟩ ∈ A := by
      rw [List.get_eq_getElem, List.getElem_append_left hlt2]
      exact List.getElem_mem _
    rw [hqA _ this] at hq
    exact Bool.false_ne_true hq
  exact Nat.lt_of_lt_of_le hiA hjA

/-- A member of a list of lists contributes a contiguous block to the
flattened list. -/
theorem flatten_split_of_mem {L : List (List α)} {l : List α} (h : l ∈ L) :
    ∃ A B, L.flatten = A ++ (l ++ B) := by
  induction L with
  | nil => exact absurd h (List.not_mem_nil l)
  | cons x xs ih =>
    rcases List.mem_cons.1 h with rfl | h2
    · exact ⟨[], xs.flatten, by simp⟩
    · obtain ⟨A, B, hAB⟩ := ih h2
      exact ⟨x ++ A, B, by simp [hAB, List.append_assoc]⟩

theorem sum_indicator_eq_count [DecidableEq α] (a : α) (l : List α) :
    (l.map fun x => if x = a then 1 else 0).sum = l.count a := by
  induction l with
  | nil => rfl
  | cons x xs ih =>
    by_cases h : x = a <;> simp [List.count_cons, ih, h, Nat.add_comm]

/-! ## Shared helpers for the claim theorems -/

theorem enumMapEv (l : List Hook) (f : Nat → Event) :
    (l.enum.map fun x => f x.1) = (List.range l.length).map f := by
  rw [← List.enum_map_fst l, List.map_map]
  rfl

/-- Witness registry: group "a" with two tests (one panicking), group "e"
with hooks but no tests, two suite before hooks, two suite after hooks,
one suite before_each and one suite after_each. -/
def wReg : Registry :=
  ⟨[⟨.before, hookOk⟩, ⟨.before, hookOk⟩, ⟨.after, hookOk⟩, ⟨.after, hookOk⟩,
    ⟨.beforeEach, hookOk⟩, ⟨.afterEach, hookOk⟩],
   [⟨"a", some hookOk, some hookOk, some hookOk, some hookOk⟩,
    ⟨"e", some hookOk, some hookOk, some hookOk, some hookOk⟩],
   [⟨"a1", "a", .ok, "f.rs", 1⟩, ⟨"a2", "a", .panics (.strPayload "boom"), "f.rs", 2⟩]⟩

theorem filter_isSuiteBefore_planTr (r : Registry) (stream : Nat → Nat)
    (iorder : List String) : (planTr r stream iorder).filter isSuiteBefore = [] :=
  List.filter_eq_nil_iff.2 fun e he => by simp [(planTr_no_suite he).1]

theorem filter_isSuiteAfter_planTr (r : Registry) (stream : Nat → Nat)
    (iorder : List String) : (planTr r stream iorder).filter isSuiteAfter = [] :=
  List.filter_eq_nil_iff.2 fun e he => by simp [(planTr_no_suite he).2.1]

/-- C7: when multiple suite hooks of the same kind are registered, the
before hooks execute in registration order (indices 0,1,…) and the after
hooks in reverse registration order (LIFO). -/
theorem c7_suite_hooks_registration_order (r : Registry) (env : Option String)
    (fresh : Nat) (stream : Nat → Nat) (iorder : List String) (seed : Nat)
    (hseed : resolveSeed env fresh = some seed) (hok : r.hooksOk = true) :
    ∃ tr sr, run r env fresh stream iorder = .ok (tr, sr) ∧
      tr.filter isSuiteBefore =
        (List.range (suiteHooksOf r .before).length).map Event.suiteBefore ∧
      tr.filter isSuiteAfter =
        ((List.range (suiteHooksOf r .after).length).map Event.suiteAfter).reverse := by
  refine ⟨_, _, run_ok r env fresh stream iorder seed hseed hok, ?_, ?_⟩
  · have hself : ((suiteHooksOf r .before).enum.map fun x =>
        Event.suiteBefore x.1).filter isSuiteBefore =
        ((suiteHooksOf r .before).enum.map fun x => Event.suiteBefore x.1) := by
      refine List.filter_eq_self.2 ?_
      intro e he
      obtain ⟨x, _, rfl⟩ := List.mem_map.1 he
      rfl
    have hsa : ((suiteHooksOf r .after).enum.reverse.map fun x =>
        Event.suiteAfter x.1).filter isSuiteBefore = [] := by
      refine List.filter_eq_nil_iff.2 ?_
      intro e he
      obtain ⟨x, _, rfl⟩ := List.mem_map.1 he
      simp [isSuiteBefore]
    simp only [okTrace, List.filter_cons, List.filter_append,
      filter_isSuiteBefore_planTr, hself, hsa]
    simp [isSuiteBefore, enumMapEv]
  · have hsb : ((suiteHooksOf r .before).enum.map fun x =>
        Event.suiteBefore x.1).filter isSuiteAfter = [] := by
      refine List.filter_eq_nil_iff.2 ?_
      intro e he
      obtain ⟨x, _, rfl⟩ := List.mem_map.1 he
      simp [isSuiteAfter]
    have hself : ((suiteHooksOf r .after).enum.reverse.map fun x =>
        Event.suiteAfter x.1).filter isSuiteAfter =
        ((suiteHooksOf r .after).enum.reverse.map fun x => Event.suiteAfter x.1) := by
      refine List.filter_eq_self.2 ?_
      intro e he
      obtain ⟨x, _, rfl⟩ := List.mem_map.1 he
      rfl
    simp only [okTrace, List.filter_cons, List.filter_append,
      filter_isSuiteAfter_planTr, hsb, hself]
    simp only [List.map_reverse]
    simp [isSuiteAfter, enumMapEv]

/-- C7 witness: the theorem applied to the witness registry. -/
theorem c7_witness :
    ∃ tr sr, run wReg (some "7") 5 (fun _ => 0) (sortedKeys wReg) = .ok (tr, sr) ∧
      tr.filter isSuiteBefore =
        (List.range (suiteHooksOf wReg .before).length).map Event.suiteBefore ∧
      tr.filter isSuiteAfter =
        ((List.range (suiteHooksOf wReg .after).length).map Event.suiteAfter).reverse :=
  c7_suite_hooks_registration_order wReg (some "7") 5 (fun _ => 0) (sortedKeys wReg) 7
    (by decide) (by decide)

/-- C8: an unparsable TEST_SEED aborts the run before any observable
effect; a parsable TEST_SEED (or, absent one, the freshly generated seed)
becomes the seed: it is stored in the returned SuiteResult, printed in the
header, and printed in the summary. -/
theorem c8_seed_resolution (r : Registry) (fresh : Nat) (stream : Nat → Nat)
    (iorder : List String) (hok : r.hooksOk = true) :
    (∀ s, parseU64 s = none → run r (some s) fresh stream iorder = .error []) ∧
    (∀ s n, parseU64 s = some n →
      ∃ tr sr, run r (some s) fresh stream iorder = .ok (tr, sr) ∧ sr.seed = n ∧
        tr.head? = some (.printHeader n) ∧
        Event.printSummary sr.passed sr.failed n ∈ tr) ∧
    (∃ tr sr, run r none fresh stream iorder = .ok (tr, sr) ∧ sr.seed = fresh ∧
      tr.head? = some (.printHeader fresh) ∧
      Event.printSummary sr.passed sr.failed fresh ∈ tr) := by
  refine ⟨?_, ?_, ?_⟩
  · intro s h
    simp [run, resolveSeed, h]
  · intro s n h
    refine ⟨_, _, run_ok r (some s) fresh stream iorder n (by simp [resolveSeed, h]) hok,
      rfl, by simp [okTrace], ?_⟩
    simp [okTrace, okSR]
  · refine ⟨_, _, run_ok r none fresh stream iorder fresh rfl hok,
      rfl, by simp [okTrace], ?_⟩
    simp [okTrace, okSR]

/-- C8 witness: the theorem applied to the witness registry. -/
theorem c8_witness :
    (∀ s, parseU64 s = none → run wReg (some s) 5 (fun _ => 0) [] = .error []) ∧
    (∀ s n, parseU64 s = some n →
      ∃ tr sr, run wReg (some s) 5 (fun _ => 0) [] = .ok (tr, sr) ∧ sr.seed = n ∧
        tr.head? = some (.printHeader n) ∧
        Event.printSummary sr.passed sr.failed n ∈ tr) ∧
    (∃ tr sr, run wReg none 5 (fun _ => 0) [] = .ok (tr, sr) ∧ sr.seed = 5 ∧
      tr.head? = some (.printHeader 5) ∧
      Event.printSummary sr.passed sr.failed 5 ∈ tr) :=
  c8_seed_resolution wReg 5 (fun _ => 0) [] (by decide)

/-! ## Span localization and plan splitting -/

theorem sep_lt' {tr A B : List α} {p q : α → Bool} (hEq : tr = A ++ B)
    (hpB : ∀ e ∈ B, p e = false) (hqA : ∀ e ∈ A, q e = false)
    {i j : Nat} (hi : i < tr.length) (hj : j < tr.length)
    (hp : p (tr.get ⟨i, hi⟩) = true) (hq : q (tr.get ⟨j, hj⟩) = true) : i < j := by
  subst hEq
  exact sep_lt hpB hqA hi hj hp hq

theorem get_append_mem_left {A B : List α} {i : Nat} (h : i < A.length)
    (hi : i < (A ++ B).length) : (A ++ B).get ⟨i, hi⟩ ∈ A := by
  rw [List.get_eq_getElem, List.getElem_append_left h]
  exact List.getElem_mem _

theorem get_append_mem_right {A B : List α} {i : Nat} (h : A.length ≤ i)
    (hi : i < (A ++ B).length) : (A ++ B).get ⟨i, hi⟩ ∈ B := by
  rw [List.get_eq_getElem, List.getElem_append_right h]
  exact List.getElem_mem _

/-- If `e` occurs in `A ++ (S ++ B)` but in neither `A` nor `B`, its
position lies in the `S` span. -/
theorem idx_in_span {tr A S B : List α} (hEq : tr = A ++ (S ++ B)) {e : α}
    (hA : e ∉ A) (hB : e ∉ B) {i : Nat} (hi : i < tr.length)
    (hgi : tr.get ⟨i, hi⟩ = e) : A.length ≤ i ∧ i < A.length + S.length := by
  subst hEq
  have h1 : A.length ≤ i := by
    by_contra hlt
    exact hA (hgi ▸ get_append_mem_left (Nat.lt_of_not_le hlt) hi)
  refine ⟨h1, ?_⟩
  by_contra hge
  have hge2 : A.length + S.length ≤ i := Nat.le_of_not_lt hge
  have hlen : i - A.length < (S ++ B).length := by
    have := hi
    simp only [List.length_append] at this ⊢
    omega
  have hget : (A ++ (S ++ B)).get ⟨i, hi⟩ = (S ++ B).get ⟨i - A.length, hlen⟩ := by
    rw [List.get_eq_getElem, List.get_eq_getElem, List.getElem_append_right h1]
  have hiB : (A ++ (S ++ B)).get ⟨i, hi⟩ ∈ B := by
    rw [hget]
    exact get_append_mem_right (by omega) hlen
  exact hB (hgi ▸ hiB)

/-- If `e` does not occur in `S`, its positions avoid the `S` span of
`A ++ (S ++ B)`. -/
theorem idx_outside_span {tr A S B : List α} (hEq : tr = A ++ (S ++ B)) {e : α}
    (hS : e ∉ S) {j : Nat} (hj : j < tr.length) (hgj : tr.get ⟨j, hj⟩ = e) :
    j < A.length ∨ A.length + S.length ≤ j := by
  subst hEq
  by_cases h1 : j < A.length
  · exact Or.inl h1
  · have h1' : A.length ≤ j := Nat.le_of_not_lt h1
    right
    by_contra hlt
    have h2 : j - A.length < S.length := by omega
    have hlen : j - A.length < (S ++ B).length := by
      simp only [List.length_append]
      omega
    have hget : (A ++ (S ++ B)).get ⟨j, hj⟩ = (S ++ B).get ⟨j - A.length, hlen⟩ := by
      rw [List.get_eq_getElem, List.get_eq_getElem, List.getElem_append_right h1']
    have : (A ++ (S ++ B)).get ⟨j, hj⟩ ∈ S := by
      rw [hget]
      exact get_append_mem_left h2 hlen
    exact hS (hgj ▸ this)

/-- Splitting the plan at a key: the key occurs in exactly one plan entry,
whose tests are a permutation of that key's registered tests. -/
theorem plan_split (r : Registry) (stream : Nat → Nat) (iorder : List String)
    (hio : iorder.Perm (keyNames r)) (n : String) (hn : n ∈ keyNames r) :
    ∃ ts p1 p2, buildPlan r stream iorder = p1 ++ (n, ts) :: p2 ∧
      (∀ pr ∈ p1, pr.1 ≠ n) ∧ (∀ pr ∈ p2, pr.1 ≠ n) ∧ ts.Perm (testsFor r n) := by
  have hperm := buildPlan_fst_perm r stream iorder
  have hmemfst : n ∈ (buildPlan r stream iorder).map Prod.fst :=
    hperm.mem_iff.2 ((sortedKeys_perm r).mem_iff.2 hn)
  have hnd : ((buildPlan r stream iorder).map Prod.fst).Nodup :=
    hperm.symm.nodup (sortedKeys_nodup r)
  obtain ⟨pr, hpr, hfst⟩ := List.mem_map.1 hmemfst
  obtain ⟨m, ts⟩ := pr
  simp only at hfst
  obtain ⟨p1, p2, hsplit⟩ := List.append_of_mem hpr
  rw [hfst] at hsplit
  have hmap : ((buildPlan r stream iorder).map Prod.fst) =
      p1.map Prod.fst ++ n :: p2.map Prod.fst := by
    rw [hsplit]
    simp
  rw [hmap] at hnd
  obtain ⟨hnd1, hnd2, hdisj⟩ := List.nodup_append.1 hnd
  refine ⟨ts, p1, p2, hsplit, ?_, ?_, ?_⟩
  · intro q hq hqn
    exact hdisj (hqn ▸ List.mem_map_of_mem Prod.fst hq) (List.mem_cons_self _ _)
  · intro q hq hqn
    exact (List.nodup_cons.1 hnd2).1 (hqn ▸ List.mem_map_of_mem Prod.fst hq)
  · exact buildPlan_snd_perm r stream iorder hio n ts
      (hsplit ▸ List.mem_append_right p1 (List.mem_cons_self _ _))

/-- The group name attached to an event, if any. -/
def evGroupName : Event → Option String
  | .printGroup n => some n
  | .groupBefore n => some n
  | .groupBeforeEach n => some n
  | .groupAfterEach n => some n
  | .groupAfter n => some n
  | .testBody m _ => some m
  | _ => none

/-- Every group-named event inside a plan entry's block carries that
entry's key (in particular every test body's module is the key). -/
theorem groupTr_evGroupName {r : Registry} {stream : Nat → Nat} {iorder : List String}
    (hio : iorder.Perm (keyNames r)) {pr : String × List TestCase}
    (hpr : pr ∈ buildPlan r stream iorder) :
    ∀ e ∈ groupTr r pr.1 pr.2, ∀ n, evGroupName e = some n → n = pr.1 := by
  intro e he n hn
  rcases mem_groupTr he with rfl | rfl | rfl | ⟨t, ht, hbt⟩
  · simpa [evGroupName] using hn.symm
  · simpa [evGroupName] using hn.symm
  · simpa [evGroupName] using hn.symm
  · have htmod : t.module = pr.1 := by
      have hperm := buildPlan_snd_perm r stream iorder hio pr.1 pr.2 hpr
      have : t ∈ testsFor r pr.1 := hperm.mem_iff.1 ht
      exact of_decide_eq_true (List.mem_filter.1 this).2
    rcases mem_testBlockTr hbt with ⟨x, _, rfl⟩ | rfl | rfl | rfl | ⟨x, _, rfl⟩ | rfl
    · simp [evGroupName] at hn
    · simpa [evGroupName] using hn.symm
    · rw [← htmod]
      simpa [evGroupName] using hn.symm
    · simpa [evGroupName] using hn.symm
    · simp [evGroupName] at hn
    · simp [evGroupName] at hn

/-! ## Counting helpers -/

theorem count_range_eq (i n : Nat) : (List.range n).count i = if i < n then 1 else 0 := by
  by_cases h : i < n
  · rw [if_pos h]
    exact List.count_eq_one_of_mem (List.nodup_range n) (List.mem_range.2 h)
  · rw [if_neg h]
    exact List.count_eq_zero.2 fun hm => h (List.mem_range.1 hm)

theorem count_optHookEv_self (oh : Option Hook) (ev : Event) :
    (optHookEv oh ev).count ev = if oh.isSome then 1 else 0 := by
  cases oh <;> simp [optHookEv]

theorem count_optHookEv_ne {e ev : Event} (h : e ≠ ev) (oh : Option Hook) :
    (optHookEv oh ev).count e = 0 := by
  cases oh <;> simp [optHookEv, h]

/-- Counting an indexed suite hook event in its own segment. -/
theorem count_enumMap (l : List Hook) (f : Nat → Event) (hf : Function.Injective f)
    (i : Nat) : ((l.enum.map fun x => f x.1).count (f i)) = if i < l.length then 1 else 0 := by
  rw [enumMapEv, List.count_map_of_injective _ f hf, count_range_eq]

/-! ## Contiguity of a test's block, and the global suite/group ordering -/

theorem split_trans {l m s : List α} (h1 : ∃ A B, l = A ++ (m ++ B))
    (h2 : ∃ C D, m = C ++ (s ++ D)) : ∃ E F, l = E ++ (s ++ F) := by
  obtain ⟨A, B, rfl⟩ := h1
  obtain ⟨C, D, rfl⟩ := h2
  exact ⟨A ++ C, D ++ B, by simp [List.append_assoc]⟩

/-- Every registered test is scheduled, and its whole per-test block
(suite before_each hooks, group before_each, body, group after_each,
suite after_each hooks, result print) is a contiguous segment of the
completed run's trace. -/
theorem testBlock_contiguous (r : Registry) (stream : Nat → Nat) (iorder : List String)
    (seed : Nat) (hio : iorder.Perm (keyNames r)) (t : TestCase) (ht : t ∈ r.tests) :
    ∃ A B, okTrace r stream iorder seed =
      A ++ (testBlockTr (sbeIdx r) (saeIdx r) (groupFor r t.module) t.module t ++ B) := by
  have hkey : t.module ∈ keyNames r := by
    unfold keyNames
    rw [List.mem_dedup, List.mem_append]
    exact Or.inr (List.mem_map_of_mem _ ht)
  obtain ⟨ts, p1, p2, hsplit, _, _, hts⟩ := plan_split r stream iorder hio t.module hkey
  have htmem : t ∈ ts := hts.mem_iff.2 (List.mem_filter.2 ⟨ht, by simp⟩)
  obtain ⟨s1, s2, hts_split⟩ := List.append_of_mem htmem
  have step1 : ∃ A B, okTrace r stream iorder seed = A ++ (planTr r stream iorder ++ B) :=
    ⟨Event.printHeader seed :: ((suiteHooksOf r .before).enum.map fun x => Event.suiteBefore x.1),
      ((suiteHooksOf r .after).enum.reverse.map fun x => Event.suiteAfter x.1)
        ++ [Event.printSummary (okSR r stream iorder seed).passed
              (okSR r stream iorder seed).failed seed],
      by simp [okTrace, List.append_assoc]⟩
  have step2 : ∃ A B, planTr r stream iorder = A ++ (groupTr r t.module ts ++ B) := by
    refine flatten_split_of_mem ?_
    rw [hsplit]
    simp
  have step3 : ∃ A B, groupTr r t.module ts =
      A ++ (testBlockTr (sbeIdx r) (saeIdx r) (groupFor r t.module) t.module t ++ B) := by
    refine ⟨Event.printGroup t.module ::
      (optHookEv ((groupFor r t.module).bind fun g => g.before) (.groupBefore t.module)
        ++ (s1.map (testBlockTr (sbeIdx r) (saeIdx r) (groupFor r t.module) t.module)).flatten),
      (s2.map (testBlockTr (sbeIdx r) (saeIdx r) (groupFor r t.module) t.module)).flatten
        ++ optHookEv ((groupFor r t.module).bind fun g => g.after) (.groupAfter t.module), ?_⟩
    simp [groupTr, hts_split, List.append_assoc]
  exact split_trans (split_trans step1 step2) step3

theorem okTrace_eq_split1 (r : Registry) (stream : Nat → Nat) (iorder : List String)
    (seed : Nat) :
    okTrace r stream iorder seed =
      (Event.printHeader seed ::
        ((suiteHooksOf r .before).enum.map fun x => Event.suiteBefore x.1))
      ++ (planTr r stream iorder
        ++ (((suiteHooksOf r .after).enum.reverse.map fun x => Event.suiteAfter x.1)
          ++ [Event.printSummary (okSR r stream iorder seed).passed
                (okSR r stream iorder seed).failed seed])) := by
  simp [okTrace, List.append_assoc]

/-- In a completed run, every suite-level before hook invocation precedes
every group-level before hook invocation. -/
theorem okTrace_suiteBefore_first (r : Registry) (stream : Nat → Nat)
    (iorder : List String) (seed : Nat) {i j : Nat}
    (hi : i < (okTrace r stream iorder seed).length)
    (hj : j < (okTrace r stream iorder seed).length)
    (hp : isSuiteBefore ((okTrace r stream iorder seed).get ⟨i, hi⟩) = true)
    (hq : isGroupBefore ((okTrace r stream iorder seed).get ⟨j, hj⟩) = true) : i < j := by
  refine sep_lt' (okTrace_eq_split1 r stream iorder seed) ?_ ?_ hi hj hp hq
  · intro e he
    rcases List.mem_append.1 he with h | h
    · exact (planTr_no_suite h).1
    · rcases List.mem_append.1 h with h2 | h2
      · obtain ⟨x, _, rfl⟩ := List.mem_map.1 h2
        rfl
      · rw [List.mem_singleton.1 h2]
        rfl
  · intro e he
    rcases List.mem_cons.1 he with rfl | h
    · rfl
    · obtain ⟨x, _, rfl⟩ := List.mem_map.1 h
      rfl

theorem okTrace_eq_split2 (r : Registry) (stream : Nat → Nat) (iorder : List String)
    (seed : Nat) :
    okTrace r stream iorder seed =
      (Event.printHeader seed ::
        (((suiteHooksOf r .before).enum.map fun x => Event.suiteBefore x.1)
          ++ planTr r stream iorder))
      ++ ((((suiteHooksOf r .after).enum.reverse.map fun x => Event.suiteAfter x.1))
        ++ [Event.printSummary (okSR r stream iorder seed).passed
              (okSR r stream iorder seed).failed seed]) := by
  simp [okTrace, List.append_assoc]

/-- In a completed run, every group-level after hook invocation precedes
every suite-level after hook invocation. -/
theorem okTrace_groupAfter_first (r : Registry) (stream : Nat → Nat)
    (iorder : List String) (seed : Nat) {i j : Nat}
    (hi : i < (okTrace r stream iorder seed).length)
    (hj : j < (okTrace r stream iorder seed).length)
    (hp : isGroupAfter ((okTrace r stream iorder seed).get ⟨i, hi⟩) = true)
    (hq : isSuiteAfter ((okTrace r stream iorder seed).get ⟨j, hj⟩) = true) : i < j := by
  refine sep_lt' (okTrace_eq_split2 r stream iorder seed) ?_ ?_ hi hj hp hq
  · intro e he
    rcases List.mem_append.1 he with h | h
    · obtain ⟨x, _, rfl⟩ := List.mem_map.1 h
      rfl
    · rw [List.mem_singleton.1 h]
      rfl
  · intro e he
    rcases List.mem_cons.1 he with rfl | h
    · rfl
    · rcases List.mem_append.1 h with h2 | h2
      · obtain ⟨x, _, rfl⟩ := List.mem_map.1 h2
        rfl
      · exact (planTr_no_suite h2).2.1

/-- C5: per-test nesting — for every scheduled test the trace contains,
contiguously and in this order: all suite before_each hooks, the group
before_each, the test body, the group after_each, all suite after_each
hooks, then the result print (irrespective of outcome); moreover every
suite before precedes every group before, and every group after precedes
every suite after, for any seed stream and iteration order. -/
theorem c5_hook_nesting (r : Registry) (env : Option String) (fresh : Nat)
    (stream : Nat → Nat) (iorder : List String) (seed : Nat)
    (hseed : resolveSeed env fresh = some seed) (hok : r.hooksOk = true)
    (hio : iorder.Perm (keyNames r)) :
    ∃ tr sr, run r env fresh stream iorder = .ok (tr, sr) ∧
      (∀ t ∈ r.tests, ∃ A B, tr =
        A ++ ((((suiteHooksOf r .beforeEach).enum.map fun x => Event.suiteBeforeEach x.1)
          ++ (optHookEv ((groupFor r t.module).bind fun g => g.before_each)
                (.groupBeforeEach t.module)
            ++ ([Event.testBody t.module t.name]
              ++ (optHookEv ((groupFor r t.module).bind fun g => g.after_each)
                    (.groupAfterEach t.module)
                ++ (((suiteHooksOf r .afterEach).enum.map fun x => Event.suiteAfterEach x.1)
                  ++ [Event.printTestResult t.name (outcomeOf t)]))))) ++ B)) ∧
      (∀ i j (hi : i < tr.length) (hj : j < tr.length),
        isSuiteBefore (tr.get ⟨i, hi⟩) = true → isGroupBefore (tr.get ⟨j, hj⟩) = true →
          i < j) ∧
      (∀ i j (hi : i < tr.length) (hj : j < tr.length),
        isGroupAfter (tr.get ⟨i, hi⟩) = true → isSuiteAfter (tr.get ⟨j, hj⟩) = true →
          i < j) := by
  refine ⟨_, _, run_ok r env fresh stream iorder seed hseed hok, ?_, ?_, ?_⟩
  · intro t ht
    obtain ⟨A, B, hAB⟩ := testBlock_contiguous r stream iorder seed hio t ht
    refine ⟨A, B, ?_⟩
    rw [hAB]
    simp [testBlockTr, sbeIdx, saeIdx, List.append_assoc]
  · intro i j hi hj hp hq
    exact okTrace_suiteBefore_first r stream iorder seed hi hj hp hq
  · intro i j hi hj hp hq
    exact okTrace_groupAfter_first r stream iorder seed hi hj hp hq

/-- C5 witness: the theorem applied to the witness registry. -/
theorem c5_witness :
    ∃ tr sr, run wReg (some "7") 5 (fun _ => 0) (sortedKeys wReg) = .ok (tr, sr) ∧
      (∀ t ∈ wReg.tests, ∃ A B, tr =
        A ++ ((((suiteHooksOf wReg .beforeEach).enum.map fun x => Event.suiteBeforeEach x.1)
          ++ (optHookEv ((groupFor wReg t.module).bind fun g => g.before_each)
                (.groupBeforeEach t.module)
            ++ ([Event.testBody t.module t.name]
              ++ (optHookEv ((groupFor wReg t.module).bind fun g => g.after_each)
                    (.groupAfterEach t.module)
                ++ (((suiteHooksOf wReg .afterEach).enum.map fun x => Event.suiteAfterEach x.1)
                  ++ [Event.printTestResult t.name (outcomeOf t)]))))) ++ B)) ∧
      (∀ i j (hi : i < tr.length) (hj : j < tr.length),
        isSuiteBefore (tr.get ⟨i, hi⟩) = true → isGroupBefore (tr.get ⟨j, hj⟩) = true →
          i < j) ∧
      (∀ i j (hi : i < tr.length) (hj : j < tr.length),
        isGroupAfter (tr.get ⟨i, hi⟩) = true → isSuiteAfter (tr.get ⟨j, hj⟩) = true →
          i < j) :=
  c5_hook_nesting wReg (some "7") 5 (fun _ => 0) (sortedKeys wReg) 7 (by decide) (by decide)
    (sortedKeys_perm wReg)

/-! ## Counting test bodies and results -/

theorem sum_ite_eq_length_filter {P : β → Prop} [DecidablePred P] (l : List β) :
    (l.map fun x => if P x then 1 else 0).sum = (l.filter fun x => P x).length := by
  induction l with
  | nil => rfl
  | cons x xs ih => by_cases h : P x <;> simp [h, ih, Nat.add_comm]

theorem filter_key_eq_singleton {l : List β} (key : β → γ) [DecidableEq γ]
    (hnd : (l.map key).Nodup) {b : β} (hb : b ∈ l) :
    l.filter (fun x => key x = key b) = [b] := by
  induction l with
  | nil => exact absurd hb (List.not_mem_nil b)
  | cons x xs ih =>
    rw [List.map_cons, List.nodup_cons] at hnd
    rcases List.mem_cons.1 hb with rfl | hbx
    · have hnil : xs.filter (fun y => key y = key b) = [] := by
        refine List.filter_eq_nil_iff.2 ?_
        intro y hy
        simp only [decide_eq_true_eq]
        intro hkey
        exact hnd.1 (hkey ▸ List.mem_map_of_mem key hy)
      simp [List.filter_cons, hnil]
    · have hne : ¬(key x = key b) := by
        intro hkey
        exact hnd.1 (hkey ▸ List.mem_map_of_mem key hbx)
      simp [List.filter_cons, hne, ih hnd.2 hbx]

theorem count_testBody_testBlockTr (sbe sae : List (Nat × Hook)) (grp : Option TestGroup)
    (gname : String) (t : TestCase) (m nm : String) :
    (testBlockTr sbe sae grp gname t).count (.testBody m nm) =
      if (t.module, t.name) = (m, nm) then 1 else 0 := by
  have h1 : (sbe.map fun x => Event.suiteBeforeEach x.1).count (Event.testBody m nm) = 0 :=
    List.count_eq_zero.2 (by simp)
  have h2 : (sae.map fun x => Event.suiteAfterEach x.1).count (Event.testBody m nm) = 0 :=
    List.count_eq_zero.2 (by simp)
  have h3 : (optHookEv (grp.bind fun g => g.before_each)
      (.groupBeforeEach gname)).count (Event.testBody m nm) = 0 :=
    count_optHookEv_ne (by simp) _
  have h4 : (optHookEv (grp.bind fun g => g.after_each)
      (.groupAfterEach gname)).count (Event.testBody m nm) = 0 :=
    count_optHookEv_ne (by simp) _
  by_cases h : (t.module, t.name) = (m, nm)
  · cases h
    simp [testBlockTr, List.count_append, h1, h2, h3, h4]
  · have hne : Event.testBody t.module t.name ≠ Event.testBody m nm := by
      intro hmem
      injection hmem with hm' hn'
      exact h (by rw [hm', hn'])
    simp [testBlockTr, List.count_append, List.count_cons, h1, h2, h3, h4, hne, h]

theorem count_testBody_groupTr (r : Registry) (gname : String) (ts : List TestCase)
    (m nm : String) :
    (groupTr r gname ts).count (.testBody m nm) =
      (ts.filter fun t => (t.module, t.name) = (m, nm)).length := by
  have h1 : (optHookEv ((groupFor r gname).bind fun g => g.before)
      (.groupBefore gname)).count (Event.testBody m nm) = 0 :=
    count_optHookEv_ne (by simp) _
  have h2 : (optHookEv ((groupFor r gname).bind fun g => g.after)
      (.groupAfter gname)).count (Event.testBody m nm) = 0 :=
    count_optHookEv_ne (by simp) _
  have h3 : ((ts.map (testBlockTr (sbeIdx r) (saeIdx r) (groupFor r gname) gname)).flatten).count
      (Event.testBody m nm) = (ts.filter fun t => (t.module, t.name) = (m, nm)).length := by
    rw [List.count_flatten, List.map_map]
    have e1 : (List.count (Event.testBody m nm) ∘
        testBlockTr (sbeIdx r) (saeIdx r) (groupFor r gname) gname) =
        fun t => if (t.module, t.name) = (m, nm) then 1 else 0 := by
      funext t
      exact count_testBody_testBlockTr _ _ _ _ t m nm
    rw [e1, sum_ite_eq_length_filter]
  simp [groupTr, List.count_append, List.count_cons, h1, h2, h3]

theorem count_testBody_okTrace (r : Registry) (stream : Nat → Nat) (iorder : List String)
    (seed : Nat) (m nm : String) :
    (okTrace r stream iorder seed).count (.testBody m nm) =
      ((((buildPlan r stream iorder).map Prod.snd).flatten).filter
        fun t => (t.module, t.name) = (m, nm)).length := by
  have h1 : ((suiteHooksOf r .before).enum.map fun x => Event.suiteBefore x.1).count
      (Event.testBody m nm) = 0 := List.count_eq_zero.2 (by simp)
  have h2 : ((suiteHooksOf r .after).enum.map fun x => Event.suiteAfter x.1).count
      (Event.testBody m nm) = 0 := List.count_eq_zero.2 (by simp)
  have h3 : (planTr r stream iorder).count (Event.testBody m nm) =
      ((((buildPlan r stream iorder).map Prod.snd).flatten).filter
        fun t => (t.module, t.name) = (m, nm)).length := by
    unfold planTr
    rw [List.count_flatten, List.map_map]
    have e1 : (List.count (Event.testBody m nm) ∘ fun pr => groupTr r pr.1 pr.2) =
        fun pr : String × List TestCase =>
          ((pr.2.filter fun t => (t.module, t.name) = (m, nm)).length) := by
      funext pr
      exact count_testBody_groupTr r pr.1 pr.2 m nm
    rw [e1, List.filter_flatten, List.length_flatten, List.map_map, List.map_map]
    rfl
  simp [okTrace, List.count_append, List.count_cons, h1, h2, h3]

/-- C2: a panicking test body is caught at the test boundary: the group
after_each and all suite after_each hooks still run immediately after the
body, exactly one TestResult is recorded for the test, failed with the
panic payload's description and the test's file and line, and every
scheduled test (siblings and later groups alike) still executes exactly
once. -/
theorem c2_panic_isolation (r : Registry) (env : Option String) (fresh : Nat)
    (stream : Nat → Nat) (iorder : List String) (seed : Nat)
    (hseed : resolveSeed env fresh = some seed) (hok : r.hooksOk = true)
    (hio : iorder.Perm (keyNames r))
    (hnd : (r.tests.map fun t => (t.module, t.name)).Nodup)
    (t : TestCase) (ht : t ∈ r.tests) (p : PanicPayload) (hp : t.test_fn = .panics p) :
    ∃ tr sr, run r env fresh stream iorder = .ok (tr, sr) ∧
      (∃ A B, tr = A ++ (([Event.testBody t.module t.name]
        ++ (optHookEv ((groupFor r t.module).bind fun g => g.after_each)
              (.groupAfterEach t.module)
          ++ (((suiteHooksOf r .afterEach).enum.map fun x => Event.suiteAfterEach x.1)
            ++ [Event.printTestResult t.name
                  (.failed (panicMessage p t.file t.line))]))) ++ B)) ∧
      sr.results.count
        ⟨t.name, t.module, t.file, t.line, .failed (panicMessage p t.file t.line)⟩ = 1 ∧
      (∀ u ∈ r.tests, tr.count (.testBody u.module u.name) = 1) := by
  have houtcome : outcomeOf t = .failed (panicMessage p t.file t.line) := by
    simp [outcomeOf, hp]
  refine ⟨_, _, run_ok r env fresh stream iorder seed hseed hok, ?_, ?_, ?_⟩
  · obtain ⟨A, B, hAB⟩ := testBlock_contiguous r stream iorder seed hio t ht
    have hblock : testBlockTr (sbeIdx r) (saeIdx r) (groupFor r t.module) t.module t =
        (((suiteHooksOf r .beforeEach).enum.map fun x => Event.suiteBeforeEach x.1)
          ++ optHookEv ((groupFor r t.module).bind fun g => g.before_each)
              (.groupBeforeEach t.module))
        ++ ((([Event.testBody t.module t.name]
          ++ (optHookEv ((groupFor r t.module).bind fun g => g.after_each)
                (.groupAfterEach t.module)
            ++ (((suiteHooksOf r .afterEach).enum.map fun x => Event.suiteAfterEach x.1)
              ++ [Event.printTestResult t.name
                    (.failed (panicMessage p t.file t.line))])))) ++ []) := by
      simp [testBlockTr, sbeIdx, saeIdx, houtcome, List.append_assoc]
    exact split_trans ⟨A, B, hAB⟩ ⟨_, _, hblock⟩
  · have hpairs : (r.tests.map testRes).map (fun res => (res.module, res.name)) =
        r.tests.map fun t => (t.module, t.name) := by
      rw [List.map_map]
      rfl
    have hndres : (r.tests.map testRes).Nodup :=
      List.Nodup.of_map _ (by rw [hpairs]; exact hnd)
    have hres : (⟨t.name, t.module, t.file, t.line,
        .failed (panicMessage p t.file t.line)⟩ : TestResult) = testRes t := by
      simp [testRes, houtcome]
    rw [hres]
    have h1 : (okSR r stream iorder seed).results = planResults r stream iorder := rfl
    rw [h1, (planResults_perm r stream iorder hio).count_eq]
    exact List.count_eq_one_of_mem hndres (List.mem_map_of_mem _ ht)
  · intro u hu
    rw [count_testBody_okTrace]
    have hperm : ((((buildPlan r stream iorder).map Prod.snd).flatten).filter
        fun t => (t.module, t.name) = (u.module, u.name)).Perm
        (r.tests.filter fun t => (t.module, t.name) = (u.module, u.name)) :=
      (buildPlan_tests_perm r stream iorder hio).filter _
    rw [hperm.length_eq,
      filter_key_eq_singleton (fun t : TestCase => (t.module, t.name)) hnd hu]
    rfl

/-- C2 witness: the theorem applied to the witness registry's panicking
test. -/
theorem c2_witness :
    ∃ tr sr, run wReg (some "7") 5 (fun _ => 0) (sortedKeys wReg) = .ok (tr, sr) ∧
      (∃ A B, tr = A ++ (([Event.testBody "a" "a2"]
        ++ (optHookEv ((groupFor wReg "a").bind fun g => g.after_each) (.groupAfterEach "a")
          ++ (((suiteHooksOf wReg .afterEach).enum.map fun x => Event.suiteAfterEach x.1)
            ++ [Event.printTestResult "a2"
                  (.failed (panicMessage (.strPayload "boom") "f.rs" 2))]))) ++ B)) ∧
      sr.results.count
        ⟨"a2", "a", "f.rs", 2, .failed (panicMessage (.strPayload "boom") "f.rs" 2)⟩ = 1 ∧
      (∀ u ∈ wReg.tests, tr.count (.testBody u.module u.name) = 1) :=
  c2_panic_isolation wReg (some "7") 5 (fun _ => 0) (sortedKeys wReg) 7 (by decide)
    (by decide) (sortedKeys_perm wReg) (by decide)
    ⟨"a2", "a", .panics (.strPayload "boom"), "f.rs", 2⟩ (by decide) (.strPayload "boom") rfl

/-! ## Counting group-level hook invocations -/

theorem count_zero_blocks_flatten {e : Event} (he : perTestEv e = false)
    (sbe sae : List (Nat × Hook)) (grp : Option TestGroup) (gname : String)
    (ts : List TestCase) :
    ((ts.map (testBlockTr sbe sae grp gname)).flatten).count e = 0 := by
  refine List.count_eq_zero.2 fun hmem => ?_
  obtain ⟨l, hl, hel⟩ := List.mem_flatten.1 hmem
  obtain ⟨t, _, rfl⟩ := List.mem_map.1 hl
  rw [testBlockTr_perTest hel] at he
  exact absurd he (by simp)

theorem count_groupBefore_groupTr (r : Registry) (n : String) (ts : List TestCase)
    (n0 : String) :
    (groupTr r n ts).count (.groupBefore n0) =
      if n = n0 ∧ ((groupFor r n).bind fun g => g.before).isSome then 1 else 0 := by
  have hblocks := count_zero_blocks_flatten (e := Event.groupBefore n0) rfl
    (sbeIdx r) (saeIdx r) (groupFor r n) n ts
  have hopta : (optHookEv ((groupFor r n).bind fun g => g.after)
      (.groupAfter n)).count (Event.groupBefore n0) = 0 :=
    count_optHookEv_ne (by simp) _
  by_cases h : n = n0
  · subst h
    by_cases hs : ((groupFor r n).bind fun g => g.before).isSome
    · simp [groupTr, List.count_cons, List.count_append, hblocks, hopta,
        count_optHookEv_self, hs]
    · simp [groupTr, List.count_cons, List.count_append, hblocks, hopta,
        count_optHookEv_self, hs]
  · have hoptb : (optHookEv ((groupFor r n).bind fun g => g.before)
        (.groupBefore n)).count (Event.groupBefore n0) = 0 := by
      refine count_optHookEv_ne ?_ _
      intro hh
      injection hh with hh2
      exact h hh2.symm
    simp [groupTr, List.count_cons, List.count_append, hblocks, hopta, hoptb, h]

theorem count_groupAfter_groupTr (r : Registry) (n : String) (ts : List TestCase)
    (n0 : String) :
    (groupTr r n ts).count (.groupAfter n0) =
      if n = n0 ∧ ((groupFor r n).bind fun g => g.after).isSome then 1 else 0 := by
  have hblocks := count_zero_blocks_flatten (e := Event.groupAfter n0) rfl
    (sbeIdx r) (saeIdx r) (groupFor r n) n ts
  have hoptb : (optHookEv ((groupFor r n).bind fun g => g.before)
      (.groupBefore n)).count (Event.groupAfter n0) = 0 :=
    count_optHookEv_ne (by simp) _
  by_cases h : n = n0
  · subst h
    by_cases hs : ((groupFor r n).bind fun g => g.after).isSome
    · simp [groupTr, List.count_cons, List.count_append, hblocks, hoptb,
        count_optHookEv_self, hs]
    · simp [groupTr, List.count_cons, List.count_append, hblocks, hoptb,
        count_optHookEv_self, hs]
  · have hopta : (optHookEv ((groupFor r n).bind fun g => g.after)
        (.groupAfter n)).count (Event.groupAfter n0) = 0 := by
      refine count_optHookEv_ne ?_ _
      intro hh
      injection hh with hh2
      exact h hh2.symm
    simp [groupTr, List.count_cons, List.count_append, hblocks, hoptb, hopta, h]

/-- Group-named structural events of a group never occur in the blocks of
other plan entries. -/
theorem groupEvent_not_mem_blocks {r : Registry} {prs : List (String × List TestCase)}
    {n0 : String} {e : Event}
    (he : e = Event.printGroup n0 ∨ e = Event.groupBefore n0 ∨ e = Event.groupAfter n0)
    (h : ∀ pr ∈ prs, pr.1 ≠ n0) :
    e ∉ (prs.map fun pr => groupTr r pr.1 pr.2).flatten := by
  intro hmem
  obtain ⟨l, hl, hel⟩ := List.mem_flatten.1 hmem
  obtain ⟨pr, hpr, rfl⟩ := List.mem_map.1 hl
  rcases mem_groupTr hel with h1 | h1 | h1 | ⟨t, _, hbt⟩
  · rcases he with rfl | rfl | rfl <;> first
      | (injection h1 with hh; exact h pr hpr hh.symm)
      | (exact absurd h1 (by simp))
  · rcases he with rfl | rfl | rfl <;> first
      | (injection h1 with hh; exact h pr hpr hh.symm)
      | (exact absurd h1 (by simp))
  · rcases he with rfl | rfl | rfl <;> first
      | (injection h1 with hh; exact h pr hpr hh.symm)
      | (exact absurd h1 (by simp))
  · have := testBlockTr_perTest hbt
    rcases he with rfl | rfl | rfl <;> simp [perTestEv] at this

/-- Group-named structural events never occur in the suite-level
segments of the trace. -/
theorem groupEvent_not_mem_suiteSegs {r : Registry} {n0 : String} {e : Event} (seed : Nat)
    (he : e = Event.printGroup n0 ∨ e = Event.groupBefore n0 ∨ e = Event.groupAfter n0)
    (pc fc : Nat) :
    e ∉ (Event.printHeader seed ::
      ((suiteHooksOf r .before).enum.map fun x => Event.suiteBefore x.1)) ∧
    e ∉ (((suiteHooksOf r .after).enum.reverse.map fun x => Event.suiteAfter x.1)
      ++ [Event.printSummary pc fc seed]) := by
  constructor
  · intro hmem
    rcases List.mem_cons.1 hmem with h1 | h1
    · rcases he with rfl | rfl | rfl <;> simp at h1
    · obtain ⟨x, _, hx⟩ := List.mem_map.1 h1
      rcases he with rfl | rfl | rfl <;> simp at hx
  · intro hmem
    rcases List.mem_append.1 hmem with h1 | h1
    · obtain ⟨x, _, hx⟩ := List.mem_map.1 h1
      rcases he with rfl | rfl | rfl <;> simp at hx
    · rw [List.mem_singleton] at h1
      rcases he with rfl | rfl | rfl <;> simp at h1

theorem groupFor_eq (r : Registry) (hgnd : (r.groups.map fun g => g.name).Nodup)
    {g : TestGroup} (hg : g ∈ r.groups) : groupFor r g.name = some g := by
  unfold groupFor
  rw [filter_key_eq_singleton (fun g : TestGroup => g.name) hgnd hg]
  rfl

theorem count_groupBefore_okTrace (r : Registry) (stream : Nat → Nat)
    (iorder : List String) (seed : Nat) (hio : iorder.Perm (keyNames r))
    (n0 : String) (hn0 : n0 ∈ keyNames r) :
    (okTrace r stream iorder seed).count (.groupBefore n0) =
      if ((groupFor r n0).bind fun g => g.before).isSome then 1 else 0 := by
  obtain ⟨ts, p1, p2, hsplit, hp1, hp2, _⟩ := plan_split r stream iorder hio n0 hn0
  have h1 : ((p1.map fun pr => groupTr r pr.1 pr.2).flatten).count (Event.groupBefore n0) = 0 :=
    List.count_eq_zero.2 (groupEvent_not_mem_blocks (Or.inr (Or.inl rfl)) hp1)
  have h2 : ((p2.map fun pr => groupTr r pr.1 pr.2).flatten).count (Event.groupBefore n0) = 0 :=
    List.count_eq_zero.2 (groupEvent_not_mem_blocks (Or.inr (Or.inl rfl)) hp2)
  have h3 : ((suiteHooksOf r .before).enum.map fun x => Event.suiteBefore x.1).count
      (Event.groupBefore n0) = 0 := List.count_eq_zero.2 (by simp)
  have h4 : ((suiteHooksOf r .after).enum.map fun x => Event.suiteAfter x.1).count
      (Event.groupBefore n0) = 0 := List.count_eq_zero.2 (by simp)
  have hcenter := count_groupBefore_groupTr r n0 ts n0
  simp only [true_and, if_pos rfl, eq_self_iff_true] at hcenter
  simp [okTrace, planTr, hsplit, List.map_append, List.flatten_append,
    List.count_append, List.count_cons, h1, h2, h3, h4, hcenter]

theorem count_groupAfter_okTrace (r : Registry) (stream : Nat → Nat)
    (iorder : List String) (seed : Nat) (hio : iorder.Perm (keyNames r))
    (n0 : String) (hn0 : n0 ∈ keyNames r) :
    (okTrace r stream iorder seed).count (.groupAfter n0) =
      if ((groupFor r n0).bind fun g => g.after).isSome then 1 else 0 := by
  obtain ⟨ts, p1, p2, hsplit, hp1, hp2, _⟩ := plan_split r stream iorder hio n0 hn0
  have h1 : ((p1.map fun pr => groupTr r pr.1 pr.2).flatten).count (Event.groupAfter n0) = 0 :=
    List.count_eq_zero.2 (groupEvent_not_mem_blocks (Or.inr (Or.inr rfl)) hp1)
  have h2 : ((p2.map fun pr => groupTr r pr.1 pr.2).flatten).count (Event.groupAfter n0) = 0 :=
    List.count_eq_zero.2 (groupEvent_not_mem_blocks (Or.inr (Or.inr rfl)) hp2)
  have h3 : ((suiteHooksOf r .before).enum.map fun x => Event.suiteBefore x.1).count
      (Event.groupAfter n0) = 0 := List.count_eq_zero.2 (by simp)
  have h4 : ((suiteHooksOf r .after).enum.map fun x => Event.suiteAfter x.1).count
      (Event.groupAfter n0) = 0 := List.count_eq_zero.2 (by simp)
  have hcenter := count_groupAfter_groupTr r n0 ts n0
  simp only [true_and, if_pos rfl, eq_self_iff_true] at hcenter
  simp [okTrace, planTr, hsplit, List.map_append, List.flatten_append,
    List.count_append, List.count_cons, h1, h2, h3, h4, hcenter]

/-! ## C3: group before/after once, after at the group boundary -/

/-- Is this event a test body belonging to module `m`? -/
def isBodyOf (m : String) : Event → Bool
  | .testBody m' _ => m' = m
  | _ => false

/-- Is this event the group-after invocation of group `n`? -/
def isGroupAfterOf (n : String) : Event → Bool
  | .groupAfter n' => n' = n
  | _ => false

theorem body_module_of_mem_plan {r : Registry} {stream : Nat → Nat} {iorder : List String}
    (hio : iorder.Perm (keyNames r)) {pr : String × List TestCase}
    (hpr : pr ∈ buildPlan r stream iorder) {t : TestCase} (ht : t ∈ pr.2) :
    t.module = pr.1 := by
  have hperm := buildPlan_snd_perm r stream iorder hio pr.1 pr.2 hpr
  have : t ∈ testsFor r pr.1 := hperm.mem_iff.1 ht
  exact of_decide_eq_true (List.mem_filter.1 this).2

theorem isBodyOf_false_of_blocks {r : Registry} {stream : Nat → Nat} {iorder : List String}
    (hio : iorder.Perm (keyNames r)) {prs : List (String × List TestCase)}
    (hsub : ∀ pr ∈ prs, pr ∈ buildPlan r stream iorder) {n0 : String}
    (h : ∀ pr ∈ prs, pr.1 ≠ n0) :
    ∀ e ∈ (prs.map fun pr => groupTr r pr.1 pr.2).flatten, isBodyOf n0 e = false := by
  intro e he
  obtain ⟨l, hl, hel⟩ := List.mem_flatten.1 he
  obtain ⟨pr, hpr, rfl⟩ := List.mem_map.1 hl
  rcases mem_groupTr hel with rfl | rfl | rfl | ⟨t, ht, hbt⟩
  · rfl
  · rfl
  · rfl
  · rcases mem_testBlockTr hbt with ⟨x, _, rfl⟩ | rfl | rfl | rfl | ⟨x, _, rfl⟩ | rfl
    · rfl
    · rfl
    · have hmod : t.module = pr.1 := body_module_of_mem_plan hio (hsub pr hpr) ht
      simp [isBodyOf, hmod, h pr hpr]
    · rfl
    · rfl
    · rfl

/-- C3: every registered group's before hook runs exactly once and its
after hook runs exactly once; all of the group's test bodies precede the
group's after invocation, and no test body of another group occurs
between the group's header and its after invocation. -/
theorem c3_group_hooks_once (r : Registry) (env : Option String) (fresh : Nat)
    (stream : Nat → Nat) (iorder : List String) (seed : Nat)
    (hseed : resolveSeed env fresh = some seed) (hok : r.hooksOk = true)
    (hio : iorder.Perm (keyNames r))
    (hgnd : (r.groups.map fun g => g.name).Nodup)
    (g : TestGroup) (hg : g ∈ r.groups) :
    ∃ tr sr, run r env fresh stream iorder = .ok (tr, sr) ∧
      (g.before.isSome = true → tr.count (.groupBefore g.name) = 1) ∧
      (g.after.isSome = true → tr.count (.groupAfter g.name) = 1) ∧
      (∀ i j (hi : i < tr.length) (hj : j < tr.length) (nm : String),
        tr.get ⟨i, hi⟩ = .testBody g.name nm → tr.get ⟨j, hj⟩ = .groupAfter g.name →
          i < j) ∧
      (∀ i j k (hi : i < tr.length) (hj : j < tr.length) (hk : k < tr.length)
        (m nm : String), m ≠ g.name →
        tr.get ⟨i, hi⟩ = .printGroup g.name → tr.get ⟨k, hk⟩ = .groupAfter g.name →
        tr.get ⟨j, hj⟩ = .testBody m nm → ¬(i < j ∧ j < k)) := by
  have hkey : g.name ∈ keyNames r := by
    unfold keyNames
    rw [List.mem_dedup, List.mem_append]
    exact Or.inl (List.mem_map_of_mem _ hg)
  have hgfor : groupFor r g.name = some g := groupFor_eq r hgnd hg
  obtain ⟨ts, p1, p2, hsplit, hp1, hp2, hts⟩ := plan_split r stream iorder hio g.name hkey
  have hp1sub : ∀ pr ∈ p1, pr ∈ buildPlan r stream iorder := by
    intro pr hpr
    rw [hsplit]
    exact List.mem_append_left _ hpr
  have hp2sub : ∀ pr ∈ p2, pr ∈ buildPlan r stream iorder := by
    intro pr hpr
    rw [hsplit]
    exact List.mem_append_right _ (List.mem_cons_of_mem _ hpr)
  refine ⟨_, _, run_ok r env fresh stream iorder seed hseed hok, ?_, ?_, ?_, ?_⟩
  · intro hbs
    rw [count_groupBefore_okTrace r stream iorder seed hio g.name hkey, hgfor]
    simp [hbs]
  · intro has
    rw [count_groupAfter_okTrace r stream iorder seed hio g.name hkey, hgfor]
    simp [has]
  · -- all of g's bodies precede g's after
    intro i j hi hj nm hgi hgj
    have hEq : okTrace r stream iorder seed =
        (Event.printHeader seed ::
          (((suiteHooksOf r .before).enum.map fun x => Event.suiteBefore x.1)
            ++ ((p1.map fun pr => groupTr r pr.1 pr.2).flatten
              ++ (Event.printGroup g.name ::
                (optHookEv ((groupFor r g.name).bind fun g => g.before)
                    (.groupBefore g.name)
                  ++ (ts.map (testBlockTr (sbeIdx r) (saeIdx r) (groupFor r g.name)
                      g.name)).flatten)))))
        ++ (optHookEv ((groupFor r g.name).bind fun g => g.after) (.groupAfter g.name)
          ++ ((p2.map fun pr => groupTr r pr.1 pr.2).flatten
            ++ (((suiteHooksOf r .after).enum.reverse.map fun x => Event.suiteAfter x.1)
              ++ [Event.printSummary (okSR r stream iorder seed).passed
                    (okSR r stream iorder seed).failed seed]))) := by
      simp [okTrace, planTr, hsplit, groupTr, List.map_append, List.flatten_append,
        List.append_assoc]
    refine sep_lt' hEq (p := isBodyOf g.name) (q := isGroupAfterOf g.name) ?_ ?_ hi hj
      (by rw [hgi]; simp [isBodyOf]) (by rw [hgj]; simp [isGroupAfterOf])
    · intro e he
      rcases List.mem_append.1 he with h1 | h1
      · rw [mem_optHookEv h1]
        rfl
      rcases List.mem_append.1 h1 with h2 | h2
      · exact isBodyOf_false_of_blocks hio hp2sub hp2 e h2
      rcases List.mem_append.1 h2 with h3 | h3
      · obtain ⟨x, _, rfl⟩ := List.mem_map.1 h3
        rfl
      · rw [List.mem_singleton.1 h3]
        rfl
    · intro e he
      rcases List.mem_cons.1 he with rfl | h1
      · rfl
      rcases List.mem_append.1 h1 with h2 | h2
      · obtain ⟨x, _, rfl⟩ := List.mem_map.1 h2
        rfl
      rcases List.mem_append.1 h2 with h3 | h3
      · -- p1 blocks: no groupAfter of g.name
        obtain ⟨l, hl, hel⟩ := List.mem_flatten.1 h3
        obtain ⟨pr, hpr, rfl⟩ := List.mem_map.1 hl
        rcases mem_groupTr hel with rfl | rfl | rfl | ⟨t, _, hbt⟩
        · rfl
        · rfl
        · simp [isGroupAfterOf, hp1 pr hpr]
        · rcases mem_testBlockTr hbt with ⟨x, _, rfl⟩ | rfl | rfl | rfl | ⟨x, _, rfl⟩ | rfl
            <;> rfl
      rcases List.mem_cons.1 h3 with rfl | h4
      · rfl
      rcases List.mem_append.1 h4 with h5 | h5
      · rw [mem_optHookEv h5]
        rfl
      · -- this group's test blocks: no groupAfter at all
        obtain ⟨l, hl, hel⟩ := List.mem_flatten.1 h5
        obtain ⟨t, _, rfl⟩ := List.mem_map.1 hl
        rcases mem_testBlockTr hel with ⟨x, _, rfl⟩ | rfl | rfl | rfl | ⟨x, _, rfl⟩ | rfl
          <;> rfl
  · -- no foreign body strictly between the group's header and its after
    intro i j k hi hj hk m nm hm hgi hgk hgj
    have hEq : okTrace r stream iorder seed =
        (Event.printHeader seed ::
          (((suiteHooksOf r .before).enum.map fun x => Event.suiteBefore x.1)
            ++ (p1.map fun pr => groupTr r pr.1 pr.2).flatten))
        ++ (groupTr r g.name ts
          ++ ((p2.map fun pr => groupTr r pr.1 pr.2).flatten
            ++ (((suiteHooksOf r .after).enum.reverse.map fun x => Event.suiteAfter x.1)
              ++ [Event.printSummary (okSR r stream iorder seed).passed
                    (okSR r stream iorder seed).failed seed]))) := by
      simp [okTrace, planTr, hsplit, List.map_append, List.flatten_append,
        List.append_assoc]
    have hPG_A : Event.printGroup g.name ∉
        (Event.printHeader seed ::
          (((suiteHooksOf r .before).enum.map fun x => Event.suiteBefore x.1)
            ++ (p1.map fun pr => groupTr r pr.1 pr.2).flatten)) := by
      intro hmem
      rcases List.mem_cons.1 hmem with h1 | h1
      · simp at h1
      rcases List.mem_append.1 h1 with h2 | h2
      · obtain ⟨x, _, hx⟩ := List.mem_map.1 h2
        simp at hx
      · exact groupEvent_not_mem_blocks (Or.inl rfl) hp1 h2
    have hGA_A : Event.groupAfter g.name ∉
        (Event.printHeader seed ::
          (((suiteHooksOf r .before).enum.map fun x => Event.suiteBefore x.1)
            ++ (p1.map fun pr => groupTr r pr.1 pr.2).flatten)) := by
      intro hmem
      rcases List.mem_cons.1 hmem with h1 | h1
      · simp at h1
      rcases List.mem_append.1 h1 with h2 | h2
      · obtain ⟨x, _, hx⟩ := List.mem_map.1 h2
        simp at hx
      · exact groupEvent_not_mem_blocks (Or.inr (Or.inr rfl)) hp1 h2
    have hB_not : ∀ e : Event, (e = Event.printGroup g.name ∨ e = Event.groupAfter g.name) →
        e ∉ ((p2.map fun pr => groupTr r pr.1 pr.2).flatten
          ++ (((suiteHooksOf r .after).enum.reverse.map fun x => Event.suiteAfter x.1)
            ++ [Event.printSummary (okSR r stream iorder seed).passed
                  (okSR r stream iorder seed).failed seed])) := by
      intro e he hmem
      rcases List.mem_append.1 hmem with h1 | h1
      · refine groupEvent_not_mem_blocks (r := r) ?_ hp2 h1
        rcases he with rfl | rfl
        · exact Or.inl rfl
        · exact Or.inr (Or.inr rfl)
      rcases List.mem_append.1 h1 with h2 | h2
      · obtain ⟨x, _, hx⟩ := List.mem_map.1 h2
        rcases he with rfl | rfl <;> simp at hx
      · rw [List.mem_singleton] at h2
        rcases he with rfl | rfl <;> simp at h2
    have hspan_i := idx_in_span hEq hPG_A (hB_not _ (Or.inl rfl)) hi hgi
    have hspan_k := idx_in_span hEq hGA_A (hB_not _ (Or.inr rfl)) hk hgk
    have hS_not : Event.testBody m nm ∉ groupTr r g.name ts := by
      intro hmem
      rcases mem_groupTr hmem with h1 | h1 | h1 | ⟨t, ht, hbt⟩
      · simp at h1
      · simp at h1
      · simp at h1
      · rcases mem_testBlockTr hbt with ⟨x, _, hx⟩ | hx | hx | hx | ⟨x, _, hx⟩ | hx
        · simp at hx
        · simp at hx
        · have hmod : t.module = g.name := by
            have : t ∈ testsFor r g.name := hts.mem_iff.1 ht
            exact of_decide_eq_true (List.mem_filter.1 this).2
          injection hx with hx1 hx2
          exact hm (hx1.trans hmod)
        · simp at hx
        · simp at hx
        · simp at hx
    have hspan_j := idx_outside_span hEq hS_not hj hgj
    intro hcon
    obtain ⟨hij, hjk⟩ := hcon
    rcases hspan_j with h | h
    · omega
    · omega

/-- C3 witness: the theorem applied to the witness registry's group "a". -/
theorem c3_witness :
    ∃ tr sr, run wReg (some "7") 5 (fun _ => 0) (sortedKeys wReg) = .ok (tr, sr) ∧
      ((⟨"a", some hookOk, some hookOk, some hookOk, some hookOk⟩ :
          TestGroup).before.isSome = true →
        tr.count (.groupBefore "a") = 1) ∧
      ((⟨"a", some hookOk, some hookOk, some hookOk, some hookOk⟩ :
          TestGroup).after.isSome = true →
        tr.count (.groupAfter "a") = 1) ∧
      (∀ i j (hi : i < tr.length) (hj : j < tr.length) (nm : String),
        tr.get ⟨i, hi⟩ = .testBody "a" nm → tr.get ⟨j, hj⟩ = .groupAfter "a" → i < j) ∧
      (∀ i j k (hi : i < tr.length) (hj : j < tr.length) (hk : k < tr.length)
        (m nm : String), m ≠ "a" →
        tr.get ⟨i, hi⟩ = .printGroup "a" → tr.get ⟨k, hk⟩ = .groupAfter "a" →
        tr.get ⟨j, hj⟩ = .testBody m nm → ¬(i < j ∧ j < k)) :=
  c3_group_hooks_once wReg (some "7") 5 (fun _ => 0) (sortedKeys wReg) 7 (by decide)
    (by decide) (sortedKeys_perm wReg) (by decide)
    ⟨"a", some hookOk, some hookOk, some hookOk, some hookOk⟩ (by decide)

/-! ## C9: a registered group with zero matching tests still runs its
before and after hooks -/

/-- C9: a registered group whose name matches no test case still has its
before hook and its after hook invoked exactly once each by run(), with
no per-test events in between: run() does not skip empty groups. -/
theorem c9_empty_group_hooks (r : Registry) (env : Option String) (fresh : Nat)
    (stream : Nat → Nat) (iorder : List String) (seed : Nat)
    (hseed : resolveSeed env fresh = some seed) (hok : r.hooksOk = true)
    (hio : iorder.Perm (keyNames r))
    (hgnd : (r.groups.map fun g => g.name).Nodup)
    (g : TestGroup) (hg : g ∈ r.groups) (hempty : testsFor r g.name = []) :
    ∃ tr sr, run r env fresh stream iorder = .ok (tr, sr) ∧
      (g.before.isSome = true → tr.count (.groupBefore g.name) = 1) ∧
      (g.after.isSome = true → tr.count (.groupAfter g.name) = 1) ∧
      (∃ A B, tr = A ++ ((Event.printGroup g.name ::
        (optHookEv g.before (.groupBefore g.name)
          ++ optHookEv g.after (.groupAfter g.name))) ++ B)) := by
  have hkey : g.name ∈ keyNames r := by
    unfold keyNames
    rw [List.mem_dedup, List.mem_append]
    exact Or.inl (List.mem_map_of_mem _ hg)
  have hgfor : groupFor r g.name = some g := groupFor_eq r hgnd hg
  obtain ⟨ts, p1, p2, hsplit, hp1, hp2, hts⟩ := plan_split r stream iorder hio g.name hkey
  have htsnil : ts = [] := by
    rw [hempty] at hts
    exact hts.eq_nil
  refine ⟨_, _, run_ok r env fresh stream iorder seed hseed hok, ?_, ?_, ?_⟩
  · intro hbs
    rw [count_groupBefore_okTrace r stream iorder seed hio g.name hkey, hgfor]
    simp [hbs]
  · intro has
    rw [count_groupAfter_okTrace r stream iorder seed hio g.name hkey, hgfor]
    simp [has]
  · have hblockmem : groupTr r g.name ts ∈
        (buildPlan r stream iorder).map fun pr => groupTr r pr.1 pr.2 := by
      rw [hsplit]
      simp
    have step1 : ∃ A B, okTrace r stream iorder seed =
        A ++ (planTr r stream iorder ++ B) :=
      ⟨Event.printHeader seed ::
        ((suiteHooksOf r .before).enum.map fun x => Event.suiteBefore x.1),
        ((suiteHooksOf r .after).enum.reverse.map fun x => Event.suiteAfter x.1)
          ++ [Event.printSummary (okSR r stream iorder seed).passed
                (okSR r stream iorder seed).failed seed],
        by simp [okTrace, List.append_assoc]⟩
    have step2 : ∃ A B, planTr r stream iorder = A ++ (groupTr r g.name ts ++ B) :=
      flatten_split_of_mem hblockmem
    have hblockeq : groupTr r g.name ts =
        (Event.printGroup g.name ::
          (optHookEv g.before (.groupBefore g.name)
            ++ optHookEv g.after (.groupAfter g.name))) := by
      rw [htsnil]
      simp [groupTr, hgfor]
    obtain ⟨A, B, hAB⟩ := split_trans step1 step2
    exact ⟨A, B, by rw [hAB, hblockeq]⟩

/-- C9 witness: the theorem applied to the witness registry's empty group
"e". -/
theorem c9_witness :
    ∃ tr sr, run wReg (some "7") 5 (fun _ => 0) (sortedKeys wReg) = .ok (tr, sr) ∧
      ((⟨"e", some hookOk, some hookOk, some hookOk, some hookOk⟩ :
          TestGroup).before.isSome = true →
        tr.count (.groupBefore "e") = 1) ∧
      ((⟨"e", some hookOk, some hookOk, some hookOk, some hookOk⟩ :
          TestGroup).after.isSome = true →
        tr.count (.groupAfter "e") = 1) ∧
      (∃ A B, tr = A ++ ((Event.printGroup "e" ::
        (optHookEv (some hookOk) (.groupBefore "e")
          ++ optHookEv (some hookOk) (.groupAfter "e"))) ++ B)) :=
  c9_empty_group_hooks wReg (some "7") 5 (fun _ => 0) (sortedKeys wReg) 7 (by decide)
    (by decide) (sortedKeys_perm wReg) (by decide)
    ⟨"e", some hookOk, some hookOk, some hookOk, some hookOk⟩ (by decide) (by decide)

/-! ## C4: suite before once; suite before_each once per scheduled test of
every group (the runner has no opt-in) -/

theorem count_suiteBefore_okTrace (r : Registry) (stream : Nat → Nat)
    (iorder : List String) (seed : Nat) (i : Nat) :
    (okTrace r stream iorder seed).count (.suiteBefore i) =
      if i < (suiteHooksOf r .before).length then 1 else 0 := by
  have h1 : (planTr r stream iorder).count (Event.suiteBefore i) = 0 := by
    refine List.count_eq_zero.2 fun hmem => ?_
    have := (planTr_no_suite hmem).1
    simp [isSuiteBefore] at this
  have h2 : ((suiteHooksOf r .after).enum.map fun x => Event.suiteAfter x.1).count
      (Event.suiteBefore i) = 0 := List.count_eq_zero.2 (by simp)
  have h3 := count_enumMap (suiteHooksOf r .before) Event.suiteBefore
    (fun a b h => by injection h) i
  simp [okTrace, List.count_append, List.count_cons, h1, h2, h3]

theorem count_sbe_testBlockTr (r : Registry) (grp : Option TestGroup) (gname : String)
    (t : TestCase) (i : Nat) (hi : i < (suiteHooksOf r .beforeEach).length) :
    (testBlockTr (sbeIdx r) (saeIdx r) grp gname t).count (.suiteBeforeEach i) = 1 := by
  have h1 := count_enumMap (suiteHooksOf r .beforeEach) Event.suiteBeforeEach
    (fun a b h => by injection h) i
  rw [if_pos hi] at h1
  have h2 : (optHookEv (grp.bind fun g => g.before_each)
      (.groupBeforeEach gname)).count (Event.suiteBeforeEach i) = 0 :=
    count_optHookEv_ne (by simp) _
  have h3 : (optHookEv (grp.bind fun g => g.after_each)
      (.groupAfterEach gname)).count (Event.suiteBeforeEach i) = 0 :=
    count_optHookEv_ne (by simp) _
  have h4 : ((saeIdx r).map fun x => Event.suiteAfterEach x.1).count
      (Event.suiteBeforeEach i) = 0 := List.count_eq_zero.2 (by simp)
  simp [testBlockTr, List.count_append, sbeIdx, h1, h2, h3, h4]

theorem count_sbe_groupTr (r : Registry) (gname : String) (ts : List TestCase)
    (i : Nat) (hi : i < (suiteHooksOf r .beforeEach).length) :
    (groupTr r gname ts).count (.suiteBeforeEach i) = ts.length := by
  have h1 : (optHookEv ((groupFor r gname).bind fun g => g.before)
      (.groupBefore gname)).count (Event.suiteBeforeEach i) = 0 :=
    count_optHookEv_ne (by simp) _
  have h2 : (optHookEv ((groupFor r gname).bind fun g => g.after)
      (.groupAfter gname)).count (Event.suiteBeforeEach i) = 0 :=
    count_optHookEv_ne (by simp) _
  have h3 : ((ts.map (testBlockTr (sbeIdx r) (saeIdx r) (groupFor r gname) gname)).flatten).count
      (Event.suiteBeforeEach i) = ts.length := by
    rw [List.count_flatten, List.map_map]
    have e1 : (List.count (Event.suiteBeforeEach i) ∘
        testBlockTr (sbeIdx r) (saeIdx r) (groupFor r gname) gname) =
        fun _ : TestCase => 1 := by
      funext t
      exact count_sbe_testBlockTr r (groupFor r gname) gname t i hi
    rw [e1]
    induction ts with
    | nil => rfl
    | cons x xs ih => simp [ih, Nat.add_comm]
  simp [groupTr, List.count_append, List.count_cons, h1, h2, h3]

theorem count_sbe_okTrace (r : Registry) (stream : Nat → Nat) (iorder : List String)
    (seed : Nat) (hio : iorder.Perm (keyNames r)) (i : Nat)
    (hi : i < (suiteHooksOf r .beforeEach).length) :
    (okTrace r stream iorder seed).count (.suiteBeforeEach i) = r.tests.length := by
  have h1 : ((suiteHooksOf r .before).enum.map fun x => Event.suiteBefore x.1).count
      (Event.suiteBeforeEach i) = 0 := List.count_eq_zero.2 (by simp)
  have h2 : ((suiteHooksOf r .after).enum.map fun x => Event.suiteAfter x.1).count
      (Event.suiteBeforeEach i) = 0 := List.count_eq_zero.2 (by simp)
  have h3 : (planTr r stream iorder).count (Event.suiteBeforeEach i) = r.tests.length := by
    unfold planTr
    rw [List.count_flatten, List.map_map]
    have e1 : (List.count (Event.suiteBeforeEach i) ∘ fun pr => groupTr r pr.1 pr.2) =
        fun pr : String × List TestCase => pr.2.length := by
      funext pr
      exact count_sbe_groupTr r pr.1 pr.2 i hi
    rw [e1]
    have e2 : ((buildPlan r stream iorder).map fun pr : String × List TestCase =>
        pr.2.length) = (((buildPlan r stream iorder).map Prod.snd).map List.length) := by
      rw [List.map_map]
      rfl
    rw [e2, ← List.length_flatten,
      (buildPlan_tests_perm r stream iorder hio).length_eq]
  simp [okTrace, List.count_append, List.count_cons, h1, h2, h3]

/-- C4 (amended): suite before hooks run exactly once per run, before any
group-level before; suite before_each hooks run exactly once per scheduled
test of EVERY group — the runner's data model has no opt-in, so the total
is the number of registered tests. -/
theorem c4_amended_suite_hooks (r : Registry) (env : Option String) (fresh : Nat)
    (stream : Nat → Nat) (iorder : List String) (seed : Nat)
    (hseed : resolveSeed env fresh = some seed) (hok : r.hooksOk = true)
    (hio : iorder.Perm (keyNames r)) :
    ∃ tr sr, run r env fresh stream iorder = .ok (tr, sr) ∧
      (∀ i, i < (suiteHooksOf r .before).length → tr.count (.suiteBefore i) = 1) ∧
      (∀ i j (hi : i < tr.length) (hj : j < tr.length),
        isSuiteBefore (tr.get ⟨i, hi⟩) = true → isGroupBefore (tr.get ⟨j, hj⟩) = true →
          i < j) ∧
      (∀ i, i < (suiteHooksOf r .beforeEach).length →
        tr.count (.suiteBeforeEach i) = r.tests.length) := by
  refine ⟨_, _, run_ok r env fresh stream iorder seed hseed hok, ?_, ?_, ?_⟩
  · intro i hi
    rw [count_suiteBefore_okTrace, if_pos hi]
  · intro i j hi hj hp hq
    exact okTrace_suiteBefore_first r stream iorder seed hi hj hp hq
  · intro i hi
    exact count_sbe_okTrace r stream iorder seed hio i hi

/-- C4 amended-claim witness: the theorem applied to the witness
registry. -/
theorem c4_witness :
    ∃ tr sr, run wReg (some "7") 5 (fun _ => 0) (sortedKeys wReg) = .ok (tr, sr) ∧
      (∀ i, i < (suiteHooksOf wReg .before).length → tr.count (.suiteBefore i) = 1) ∧
      (∀ i j (hi : i < tr.length) (hj : j < tr.length),
        isSuiteBefore (tr.get ⟨i, hi⟩) = true → isGroupBefore (tr.get ⟨j, hj⟩) = true →
          i < j) ∧
      (∀ i, i < (suiteHooksOf wReg .beforeEach).length →
        tr.count (.suiteBeforeEach i) = wReg.tests.length) :=
  c4_amended_suite_hooks wReg (some "7") 5 (fun _ => 0) (sortedKeys wReg) 7 (by decide)
    (by decide) (sortedKeys_perm wReg)

/-! ## C10: a hook panic is not caught — it unwinds out of run() -/

/-- The trace carried by a hook-sequence result, completed or unwound. -/
def trOfH : Except Trace Trace → Trace
  | .ok tr => tr
  | .error tr => tr

/-- The trace carried by a result paired with a value, completed or
unwound. -/
def trOfP {β : Type} : Except Trace (Trace × β) → Trace
  | .ok (tr, _) => tr
  | .error tr => tr

theorem mem_trOfH_runHookSeq (mk : Nat → Event) (hs : List (Nat × Hook)) :
    ∀ e ∈ trOfH (runHookSeq mk hs), ∃ i, e = mk i := by
  induction hs with
  | nil => intro e he; exact absurd he (List.not_mem_nil e)
  | cons x rest ih =>
    obtain ⟨i, hk⟩ := x
    intro e he
    rw [runHookSeq] at he
    by_cases hp : hk.panics
    · rw [if_pos hp] at he
      simp only [trOfH, List.mem_singleton] at he
      exact ⟨i, he⟩
    · rw [if_neg hp] at he
      rcases hrec : runHookSeq mk rest with tr0 | tr0 <;> rw [hrec] at he <;>
        simp only [trOfH] at he <;> rcases List.mem_cons.1 he with rfl | hmem
      · exact ⟨i, rfl⟩
      · exact ih e (by rw [hrec]; exact hmem)
      · exact ⟨i, rfl⟩
      · exact ih e (by rw [hrec]; exact hmem)

theorem mem_trOfH_runOptHook (oh : Option Hook) (ev : Event) :
    ∀ e ∈ trOfH (runOptHook oh ev), e = ev := by
  intro e he
  rcases oh with _ | hk
  · exact absurd he (List.not_mem_nil e)
  · simp only [runOptHook] at he
    by_cases hp : hk.panics <;> simp [hp, trOfH] at he <;> exact he

theorem mem_trOfP_runTest (sbe sae : List (Nat × Hook)) (grp : Option TestGroup)
    (gname : String) (t : TestCase) :
    ∀ e ∈ trOfP (runTest sbe sae grp gname t), perTestEv e = true := by
  intro e he
  rw [runTest] at he
  rcases h1 : runHookSeq Event.suiteBeforeEach sbe with tr1 | tr1 <;> rw [h1] at he
  · obtain ⟨i, rfl⟩ := mem_trOfH_runHookSeq _ sbe e (by rw [h1]; exact he)
    rfl
  rcases h2 : runOptHook (grp.bind fun g => g.before_each) (.groupBeforeEach gname)
    with tr2 | tr2 <;> rw [h2] at he
  · simp only [trOfP] at he
    rcases List.mem_append.1 he with hm | hm
    · obtain ⟨i, rfl⟩ := mem_trOfH_runHookSeq _ sbe e (by rw [h1]; exact hm)
      rfl
    · rw [mem_trOfH_runOptHook _ _ e (by rw [h2]; exact hm)]
      rfl
  rcases h3 : runOptHook (grp.bind fun g => g.after_each) (.groupAfterEach gname)
    with tr3 | tr3 <;> rw [h3] at he
  · simp only [trOfP] at he
    rcases List.mem_append.1 he with hm | hm
    rcases List.mem_append.1 hm with hm2 | hm2
    rcases List.mem_append.1 hm2 with hm3 | hm3
    · obtain ⟨i, rfl⟩ := mem_trOfH_runHookSeq _ sbe e (by rw [h1]; exact hm3)
      rfl
    · rw [mem_trOfH_runOptHook _ _ e (by rw [h2]; exact hm3)]
      rfl
    · rw [List.mem_singleton.1 hm2]
      rfl
    · rw [mem_trOfH_runOptHook _ _ e (by rw [h3]; exact hm)]
      rfl
  rcases h4 : runHookSeq Event.suiteAfterEach sae with tr4 | tr4 <;> rw [h4] at he <;>
    simp only [trOfP] at he
  · rcases List.mem_append.1 he with hm | hm
    rcases List.mem_append.1 hm with hm2 | hm2
    rcases List.mem_append.1 hm2 with hm3 | hm3
    rcases List.mem_append.1 hm3 with hm4 | hm4
    · obtain ⟨i, rfl⟩ := mem_trOfH_runHookSeq _ sbe e (by rw [h1]; exact hm4)
      rfl
    · rw [mem_trOfH_runOptHook _ _ e (by rw [h2]; exact hm4)]
      rfl
    · rw [List.mem_singleton.1 hm3]
      rfl
    · rw [mem_trOfH_runOptHook _ _ e (by rw [h3]; exact hm2)]
      rfl
    · obtain ⟨i, rfl⟩ := mem_trOfH_runHookSeq _ sae e (by rw [h4]; exact hm)
      rfl
  · rcases List.mem_append.1 he with hm | hm
    rcases List.mem_append.1 hm with hm2 | hm2
    rcases List.mem_append.1 hm2 with hm3 | hm3
    rcases List.mem_append.1 hm3 with hm4 | hm4
    rcases List.mem_append.1 hm4 with hm5 | hm5
    · obtain ⟨i, rfl⟩ := mem_trOfH_runHookSeq _ sbe e (by rw [h1]; exact hm5)
      rfl
    · rw [mem_trOfH_runOptHook _ _ e (by rw [h2]; exact hm5)]
      rfl
    · rw [List.mem_singleton.1 hm4]
      rfl
    · rw [mem_trOfH_runOptHook _ _ e (by rw [h3]; exact hm3)]
      rfl
    · obtain ⟨i, rfl⟩ := mem_trOfH_runHookSeq _ sae e (by rw [h4]; exact hm2)
      rfl
    · rw [List.mem_singleton.1 hm]
      rfl

theorem mem_trOfP_runTests (sbe sae : List (Nat × Hook)) (grp : Option TestGroup)
    (gname : String) (ts : List TestCase) :
    ∀ e ∈ trOfP (runTests sbe sae grp gname ts), perTestEv e = true := by
  induction ts with
  | nil => intro e he; exact absurd he (List.not_mem_nil e)
  | cons t rest ih =>
    intro e he
    rw [runTests] at he
    rcases h1 : runTest sbe sae grp gname t with tr1 | ⟨tr1, res⟩ <;> rw [h1] at he
    · exact mem_trOfP_runTest sbe sae grp gname t e (by rw [h1]; exact he)
    rcases h2 : runTests sbe sae grp gname rest with tr2 | ⟨tr2, rs⟩ <;> rw [h2] at he <;>
      simp only [trOfP] at he <;> rcases List.mem_append.1 he with hm | hm
    · exact mem_trOfP_runTest sbe sae grp gname t e (by rw [h1]; exact hm)
    · exact ih e (by rw [h2]; exact hm)
    · exact mem_trOfP_runTest sbe sae grp gname t e (by rw [h1]; exact hm)
    · exact ih e (by rw [h2]; exact hm)

theorem noSummary_of_perTest {e : Event} (h : perTestEv e = true) :
    isPrintSummary e = false := by
  cases e <;> simp_all [perTestEv, isPrintSummary]

theorem mem_trOfP_runGroup (sbe sae : List (Nat × Hook)) (r : Registry) (gname : String)
    (ts : List TestCase) :
    ∀ e ∈ trOfP (runGroup sbe sae r gname ts), isPrintSummary e = false := by
  intro e he
  rw [runGroup] at he
  rcases h1 : runOptHook ((groupFor r gname).bind fun g => g.before) (.groupBefore gname)
    with tr1 | tr1 <;> rw [h1] at he
  · simp only [trOfP, List.mem_append, List.mem_singleton] at he
    rcases he with rfl | hm
    · rfl
    · rw [mem_trOfH_runOptHook _ _ e (by rw [h1]; exact hm)]
      rfl
  rcases h2 : runTests sbe sae (groupFor r gname) gname ts with tr2 | p2 <;> rw [h2] at he
  · simp only [trOfP, List.mem_append, List.mem_singleton] at he
    rcases he with (rfl | hm) | hm
    · rfl
    · rw [mem_trOfH_runOptHook _ _ e (by rw [h1]; exact hm)]
      rfl
    · exact noSummary_of_perTest
        (mem_trOfP_runTests sbe sae (groupFor r gname) gname ts e (by rw [h2]; exact hm))
  obtain ⟨tr2, rs⟩ := p2
  rcases h3 : runOptHook ((groupFor r gname).bind fun g => g.after) (.groupAfter gname)
    with tr3 | tr3 <;> rw [h3] at he
  · simp only [trOfP, List.mem_append, List.mem_singleton] at he
    rcases he with ((rfl | hm) | hm) | hm
    · rfl
    · rw [mem_trOfH_runOptHook _ _ e (by rw [h1]; exact hm)]
      rfl
    · exact noSummary_of_perTest
        (mem_trOfP_runTests sbe sae (groupFor r gname) gname ts e (by rw [h2]; exact hm))
    · rw [mem_trOfH_runOptHook _ _ e (by rw [h3]; exact hm)]
      rfl
  · simp only [trOfP, List.mem_append, List.mem_singleton] at he
    rcases he with ((rfl | hm) | hm) | hm
    · rfl
    · rw [mem_trOfH_runOptHook _ _ e (by rw [h1]; exact hm)]
      rfl
    · exact noSummary_of_perTest
        (mem_trOfP_runTests sbe sae (groupFor r gname) gname ts e (by rw [h2]; exact hm))
    · rw [mem_trOfH_runOptHook _ _ e (by rw [h3]; exact hm)]
      rfl

theorem mem_trOfP_runGroups (sbe sae : List (Nat × Hook)) (r : Registry)
    (plan : List (String × List TestCase)) :
    ∀ e ∈ trOfP (runGroups sbe sae r plan), isPrintSummary e = false := by
  induction plan with
  | nil => intro e he; exact absurd he (List.not_mem_nil e)
  | cons pr rest ih =>
    intro e he
    rw [runGroups] at he
    rcases h1 : runGroup sbe sae r pr.1 pr.2 with tr1 | ⟨tr1, rs⟩ <;> rw [h1] at he
    · exact mem_trOfP_runGroup sbe sae r pr.1 pr.2 e (by rw [h1]; exact he)
    rcases h2 : runGroups sbe sae r rest with tr2 | ⟨tr2, rs2⟩ <;> rw [h2] at he <;>
      simp only [trOfP] at he <;> rcases List.mem_append.1 he with hm | hm
    · exact mem_trOfP_runGroup sbe sae r pr.1 pr.2 e (by rw [h1]; exact hm)
    · exact ih e (by rw [h2]; exact hm)
    · exact mem_trOfP_runGroup sbe sae r pr.1 pr.2 e (by rw [h1]; exact hm)
    · exact ih e (by rw [h2]; exact hm)

/-! ## Error shapes: an unwound run ends at the panicking hook's event -/

theorem err_runHookSeq {mk : Nat → Event} {hs : List (Nat × Hook)} {tr : Trace}
    (h : runHookSeq mk hs = .error tr) : ∃ pre i, tr = pre ++ [mk i] := by
  induction hs generalizing tr with
  | nil => simp [runHookSeq] at h
  | cons x rest ih =>
    obtain ⟨i, hk⟩ := x
    rw [runHookSeq] at h
    by_cases hp : hk.panics
    · rw [if_pos hp] at h
      injection h with h2
      exact ⟨[], i, by rw [← h2]; rfl⟩
    · rw [if_neg hp] at h
      rcases hrec : runHookSeq mk rest with tr0 | tr0 <;> rw [hrec] at h
      · injection h with h2
        obtain ⟨pre, i', hpre⟩ := ih hrec
        exact ⟨mk i :: pre, i', by rw [← h2, hpre]; rfl⟩
      · exact absurd h (by simp)

theorem err_runOptHook {oh : Option Hook} {ev : Event} {tr : Trace}
    (h : runOptHook oh ev = .error tr) : tr = [ev] := by
  rcases oh with _ | hk
  · simp [runOptHook] at h
  · rw [runOptHook] at h
    by_cases hp : hk.panics
    · rw [if_pos hp] at h
      injection h with h2
      exact h2.symm
    · rw [if_neg hp] at h
      exact absurd h (by simp)

theorem err_runTest {sbe sae : List (Nat × Hook)} {grp : Option TestGroup}
    {gname : String} {t : TestCase} {tr : Trace}
    (h : runTest sbe sae grp gname t = .error tr) :
    ∃ pre ev, tr = pre ++ [ev] ∧ isHookEvent ev = true := by
  rw [runTest] at h
  rcases h1 : runHookSeq Event.suiteBeforeEach sbe with tr1 | tr1 <;> rw [h1] at h
  · injection h with h2
    obtain ⟨pre, i, hpre⟩ := err_runHookSeq h1
    exact ⟨pre, Event.suiteBeforeEach i, by rw [← h2, hpre], rfl⟩
  rcases h2 : runOptHook (grp.bind fun g => g.before_each) (.groupBeforeEach gname)
    with tr2 | tr2 <;> rw [h2] at h
  · injection h with h3
    exact ⟨tr1, .groupBeforeEach gname, by rw [← h3, err_runOptHook h2], rfl⟩
  rcases h3 : runOptHook (grp.bind fun g => g.after_each) (.groupAfterEach gname)
    with tr3 | tr3 <;> rw [h3] at h
  · injection h with h4
    exact ⟨tr1 ++ tr2 ++ [Event.testBody t.module t.name], .groupAfterEach gname,
      by rw [← h4, err_runOptHook h3], rfl⟩
  rcases h4 : runHookSeq Event.suiteAfterEach sae with tr4 | tr4 <;> rw [h4] at h
  · injection h with h5
    obtain ⟨pre, i, hpre⟩ := err_runHookSeq h4
    exact ⟨tr1 ++ tr2 ++ [Event.testBody t.module t.name] ++ tr3 ++ pre,
      .suiteAfterEach i, by rw [← h5, hpre]; simp, rfl⟩
  · exact absurd h (by simp)

theorem err_runTests {sbe sae : List (Nat × Hook)} {grp : Option TestGroup}
    {gname : String} {ts : List TestCase} {tr : Trace}
    (h : runTests sbe sae grp gname ts = .error tr) :
    ∃ pre ev, tr = pre ++ [ev] ∧ isHookEvent ev = true := by
  induction ts generalizing tr with
  | nil => simp [runTests] at h
  | cons t rest ih =>
    rw [runTests] at h
    rcases h1 : runTest sbe sae grp gname t with tr1 | p1 <;> rw [h1] at h
    · injection h with h2
      obtain ⟨pre, ev, hpre, hev⟩ := err_runTest h1
      exact ⟨pre, ev, by rw [← h2, hpre], hev⟩
    obtain ⟨tr1, res⟩ := p1
    rcases h2 : runTests sbe sae grp gname rest with tr2 | p2 <;> rw [h2] at h
    · injection h with h3
      obtain ⟨pre, ev, hpre, hev⟩ := ih h2
      exact ⟨tr1 ++ pre, ev, by rw [← h3, hpre]; simp, hev⟩
    · exact absurd h (by simp)

theorem err_runGroup {sbe sae : List (Nat × Hook)} {r : Registry} {gname : String}
    {ts : List TestCase} {tr : Trace}
    (h : runGroup sbe sae r gname ts = .error tr) :
    ∃ pre ev, tr = pre ++ [ev] ∧ isHookEvent ev = true := by
  rw [runGroup] at h
  rcases h1 : runOptHook ((groupFor r gname).bind fun g => g.before) (.groupBefore gname)
    with tr1 | tr1 <;> rw [h1] at h
  · injection h with h2
    exact ⟨[Event.printGroup gname], .groupBefore gname,
      by rw [← h2, err_runOptHook h1], rfl⟩
  rcases h2 : runTests sbe sae (groupFor r gname) gname ts with tr2 | p2 <;> rw [h2] at h
  · injection h with h3
    obtain ⟨pre, ev, hpre, hev⟩ := err_runTests h2
    exact ⟨[Event.printGroup gname] ++ tr1 ++ pre, ev, by rw [← h3, hpre]; simp, hev⟩
  obtain ⟨tr2, rs⟩ := p2
  rcases h3 : runOptHook ((groupFor r gname).bind fun g => g.after) (.groupAfter gname)
    with tr3 | tr3 <;> rw [h3] at h
  · injection h with h4
    exact ⟨[Event.printGroup gname] ++ tr1 ++ tr2, .groupAfter gname,
      by rw [← h4, err_runOptHook h3], rfl⟩
  · exact absurd h (by simp)

theorem err_runGroups {sbe sae : List (Nat × Hook)} {r : Registry}
    {plan : List (String × List TestCase)} {tr : Trace}
    (h : runGroups sbe sae r plan = .error tr) :
    ∃ pre ev, tr = pre ++ [ev] ∧ isHookEvent ev = true := by
  induction plan generalizing tr with
  | nil => simp [runGroups] at h
  | cons pr rest ih =>
    rw [runGroups] at h
    rcases h1 : runGroup sbe sae r pr.1 pr.2 with tr1 | p1 <;> rw [h1] at h
    · injection h with h2
      obtain ⟨pre, ev, hpre, hev⟩ := err_runGroup h1
      exact ⟨pre, ev, by rw [← h2, hpre], hev⟩
    obtain ⟨tr1, rs⟩ := p1
    rcases h2 : runGroups sbe sae r rest with tr2 | p2 <;> rw [h2] at h
    · injection h with h3
      obtain ⟨pre, ev, hpre, hev⟩ := ih h2
      exact ⟨tr1 ++ pre, ev, by rw [← h3, hpre]; simp, hev⟩
    · exact absurd h (by simp)

/-- C10: a panic inside any hook (group before / before_each / after_each
/ after, or any suite hook) is NOT caught by run(): the run unwinds at the
panicking hook's invocation — the trace ends exactly at a hook event, no
summary is ever printed, no SuiteResult is returned (so no TestResult is
recorded for the test in flight) — whereas if no hook panics, run() never
unwinds no matter how many test bodies panic: only the body is inside
catch_unwind. -/
theorem c10_hook_panic_unwinds (r : Registry) (env : Option String) (fresh : Nat)
    (stream : Nat → Nat) (iorder : List String) (seed : Nat)
    (hseed : resolveSeed env fresh = some seed) :
    (∀ tr, run r env fresh stream iorder = .error tr →
      (∃ pre ev, tr = pre ++ [ev] ∧ isHookEvent ev = true) ∧
      (∀ e ∈ tr, isPrintSummary e = false)) ∧
    (r.hooksOk = true → ∀ tr, run r env fresh stream iorder ≠ .error tr) := by
  constructor
  · intro tr htr
    rw [run, hseed] at htr
    simp only at htr
    rcases h1 : runHookSeq Event.suiteBefore (suiteHooksOf r .before).enum
      with tr1 | tr1 <;> rw [h1] at htr
    · injection htr with h2
      obtain ⟨pre, i, hpre⟩ := err_runHookSeq h1
      refine ⟨⟨Event.printHeader seed :: pre, Event.suiteBefore i,
        by rw [← h2, hpre]; rfl, rfl⟩, ?_⟩
      intro e he
      rw [← h2] at he
      rcases List.mem_cons.1 (by simpa using he) with rfl | hm
      · rfl
      · obtain ⟨i', rfl⟩ := mem_trOfH_runHookSeq _ _ e (by rw [h1]; exact hm)
        rfl
    rcases h2 : runGroups (suiteHooksOf r .beforeEach).enum
      (suiteHooksOf r .afterEach).enum r (buildPlan r stream iorder)
      with tr2 | p2 <;> rw [h2] at htr
    · injection htr with h3
      obtain ⟨pre, ev, hpre, hev⟩ := err_runGroups h2
      refine ⟨⟨Event.printHeader seed :: (tr1 ++ pre), ev,
        by rw [← h3, hpre]; simp, hev⟩, ?_⟩
      intro e he
      rw [← h3] at he
      simp only [List.mem_append, List.mem_singleton] at he
      rcases he with (rfl | hm) | hm
      · rfl
      · obtain ⟨i', rfl⟩ := mem_trOfH_runHookSeq _ _ e (by rw [h1]; exact hm)
        rfl
      · exact mem_trOfP_runGroups _ _ r _ e (by rw [h2]; exact hm)
    obtain ⟨tr2, rs⟩ := p2
    rcases h3 : runHookSeq Event.suiteAfter (suiteHooksOf r .after).enum.reverse
      with tr3 | tr3 <;> rw [h3] at htr
    · injection htr with h4
      obtain ⟨pre, i, hpre⟩ := err_runHookSeq h3
      refine ⟨⟨Event.printHeader seed :: (tr1 ++ (tr2 ++ pre)), Event.suiteAfter i,
        by rw [← h4, hpre]; simp, rfl⟩, ?_⟩
      intro e he
      rw [← h4] at he
      simp only [List.mem_append, List.mem_singleton] at he
      rcases he with ((rfl | hm) | hm) | hm
      · rfl
      · obtain ⟨i', rfl⟩ := mem_trOfH_runHookSeq _ _ e (by rw [h1]; exact hm)
        rfl
      · exact mem_trOfP_runGroups _ _ r _ e (by rw [h2]; exact hm)
      · obtain ⟨i', rfl⟩ := mem_trOfH_runHookSeq _ _ e (by rw [h3]; exact hm)
        rfl
    · exact absurd htr (by simp)
  · intro hok tr htr
    rw [run_ok r env fresh stream iorder seed hseed hok] at htr
    exact Except.noConfusion htr

/-- Registry whose group before hook panics, for the C10 witness. -/
def pReg : Registry :=
  ⟨[], [⟨"g", some hookPanics, none, none, none⟩], [⟨"t", "g", .ok, "f.rs", 1⟩]⟩

/-- C10 witness: the theorem applied to a registry with a panicking group
before hook. -/
theorem c10_witness :
    (∀ tr, run pReg none 3 (fun _ => 0) (sortedKeys pReg) = .error tr →
      (∃ pre ev, tr = pre ++ [ev] ∧ isHookEvent ev = true) ∧
      (∀ e ∈ tr, isPrintSummary e = false)) ∧
    (pReg.hooksOk = true →
      ∀ tr, run pReg none 3 (fun _ => 0) (sortedKeys pReg) ≠ .error tr) :=
  c10_hook_panic_unwinds pReg none 3 (fun _ => 0) (sortedKeys pReg) 3 rfl
